import Mathlib

/-!
Verification development for the indentation-to-tree converter
(`app/lib/generate-tree.ts`, `app/lib/tree-formatters.ts`).

The mutable `FileStructure` graph of the source (nodes with a `children`
array and a `parent` back-reference) is embedded as an *arena*: a list of
nodes in creation (= document) order, where `children` and `parent` hold
arena indices.  The synthetic root is always index 0.  Reference equality
of the source becomes index equality.

Traversals that the source performs by recursion or by walking `parent`
pointers are embedded with an explicit fuel argument (the source needs no
fuel because its trees are finite and acyclic by construction; every
top-level entry point passes `a.length` or more, which is enough fuel for
every arena produced by `parseInput`, as proved below).
-/

/-- One `FileStructure` object.  `children` and `parent` are arena indices. -/
structure FsNode where
  name : String
  children : List Nat
  indentCount : Int
  parent : Option Nat
  deriving DecidableEq, Repr

/-- An arena of nodes; index 0 is the node handed around as "the structure". -/
abbrev Arena := List FsNode

/-- Out-of-range lookups return an inert node (never reached on the
arenas produced by `parseInput`). -/
def defaultNode : FsNode := { name := "", children := [], indentCount := 0, parent := none }

def getNode (a : Arena) (i : Nat) : FsNode := (a[i]?).getD defaultNode

/-! ## splitInput (parse-input.ts) -/

/-- The character class `\s` of JavaScript regular expressions. -/
def jsWhitespace (c : Char) : Bool :=
  c = ' ' || c = '\t' || c = '\n' || c = '\r' ||
  c.val = 0x0b || c.val = 0x0c || c.val = 0xa0 ||
  c.val = 0x1680 || (0x2000 ≤ c.val && c.val ≤ 0x200a) ||
  c.val = 0x2028 || c.val = 0x2029 || c.val = 0x202f ||
  c.val = 0x205f || c.val = 0x3000 || c.val = 0xfeff

def isNewlineChar (c : Char) : Bool := c = '\r' || c = '\n'

/-- Split a character list at every newline character (`String.split`
semantics: `n` separators yield `n + 1` segments, possibly empty). -/
def lineSegs : List Char → List (List Char)
  | [] => [[]]
  | c :: cs =>
    if isNewlineChar c then [] :: lineSegs cs
    else
      match lineSegs cs with
      | [] => [[c]]
      | seg :: rest => (c :: seg) :: rest

/-- `input.match(/[^\r\n]+/g) || []`: the maximal runs of non-newline
characters, i.e. the newline-separated segments with empty segments
dropped. -/
def jsLines (input : String) : List String :=
  ((lineSegs input.toList).filter (fun cs => cs != [])).map String.mk

/-- `/^\s*$/.test l` -/
def onlyWhitespace (l : String) : Bool := l.toList.all jsWhitespace

/-- Capturing group 2 of `/^((\s*)(?:-\s)?)/`: the leading whitespace run. -/
def leadingWs (l : List Char) : List Char := l.takeWhile jsWhitespace

/-- Capturing group 1 of `/^((\s*)(?:-\s)?)/`: the leading whitespace run
followed by an optional markdown bullet (a dash and one whitespace char). -/
def leadingWsAndBullet (l : List Char) : List Char :=
  let ws := leadingWs l
  match l.drop ws.length with
  | '-' :: c :: _ => if jsWhitespace c then ws ++ ['-', c] else ws
  | _ => ws

/-- `splitInput`: one un-nested `FileStructure` per surviving line.  The
regex `/^((\s*)(?:-\s)?)/` always matches, so the `matchResult === null`
error branch of the source is dead code and has no counterpart here.
`line.replace(matchResult[1], '')` removes the first occurrence of group 1,
which—group 1 being a prefix—is precisely the prefix itself. -/
def splitInput (input : String) : List FsNode :=
  ((jsLines input).filter (fun l => !(onlyWhitespace l))).map (fun line =>
    let cs := line.toList
    { name := String.mk (cs.drop (leadingWsAndBullet cs).length)
      children := []
      indentCount := ((leadingWs cs).length : Int)
      parent := none })

/-! ## parseInput (parse-input.ts) -/

/-- The two `throw new Error(...)` sites of `parseInput`, kept apart so the
unreachability of the stack-underflow site is statable.  `message`
recovers the thrown message text. -/
inductive ParseErr where
  | emptyInput : ParseErr
  | badIndentJump (name : String) : ParseErr
  | badIndentUnderflow (name : String) : ParseErr
  deriving DecidableEq, Repr

def ParseErr.message : ParseErr → String
  | .emptyInput => "Input must be a non-empty string"
  | .badIndentJump n => "Bad indentation found at item: " ++ n
  | .badIndentUnderflow n => "Bad indentation found at item: " ++ n

/-- The synthetic root created at the start of `parseInput`. -/
def rootNode : FsNode := { name := ".", children := [], indentCount := -1, parent := none }

/-- `path[path.length - 1].indentCount`: the indent of the stack top (the
stack always holds at least the root, so the `-1` default of the empty
case is never consulted). -/
def stackTopIndent (a : Arena) (path : List Nat) : Int :=
  ((path.head?.map (fun t => (getNode a t).indentCount)).getD (-1))

/-- The indentation-jump test of `parseInput`:
`s.indentCount > lastIndent + 2 && lastIndent !== -1`. -/
def jumpCond (a : Arena) (path : List Nat) (s : FsNode) : Prop :=
  s.indentCount > stackTopIndent a path + 2 ∧ stackTopIndent a path ≠ -1

instance (a : Arena) (path : List Nat) (s : FsNode) : Decidable (jumpCond a path s) := by
  unfold jumpCond; infer_instance

/-- One iteration of the `for (const s of structures)` loop.  The state is
the arena together with the `path` stack of open-ancestor indices,
deepest first (the JS array has its top at the end; this list has its
top at the head).  The fresh node gets index `a.length`. -/
def parseStep (st : Arena × List Nat) (s : FsNode) : Except ParseErr (Arena × List Nat) :=
  let a := st.1
  let path := st.2
  if jumpCond a path s then
    .error (.badIndentJump s.name)
  else
    let path2 := path.dropWhile (fun i => decide ((getNode a i).indentCount ≥ s.indentCount))
    match path2 with
    | [] => .error (.badIndentUnderflow s.name)
    | p :: _ =>
      let n := a.length
      let a2 := (a.set p { getNode a p with children := (getNode a p).children ++ [n] })
        ++ [{ s with parent := some p }]
      .ok (a2, n :: path2)

def runItems : Arena × List Nat → List FsNode → Except ParseErr (Arena × List Nat)
  | st, [] => .ok st
  | st, s :: rest =>
    match parseStep st s with
    | .ok st2 => runItems st2 rest
    | .error e => .error e

/-- `parseInput`.  On success, the returned arena is the whole tree; its
index 0 is the root node the source returns. -/
def parseInput (input : String) : Except ParseErr Arena :=
  if input = "" then .error .emptyInput
  else
    match runItems ([rootNode], [0]) (splitInput input) with
    | .ok (a, _) => .ok a
    | .error e => .error e

/-! ## generateTree (generate-tree.ts) -/

inductive Charset where
  | ascii : Charset
  | utf8 : Charset
  deriving DecidableEq, Repr

structure LineSet where
  CHILD : String
  LAST_CHILD : String
  DIRECTORY : String
  EMPTY : String
  deriving DecidableEq, Repr

/-- Modelled from the spec: the repository file `line-strings.ts` is not in
`src/`; the spec's character-set table (§4.2) fixes the exact strings for
both charsets, reproduced here verbatim. -/
def LINE_STRINGS : Charset → LineSet
  | .ascii => { CHILD := "|-- ", LAST_CHILD := "`-- ", DIRECTORY := "|   ", EMPTY := "    " }
  | .utf8 => { CHILD := "├── ", LAST_CHILD := "└── ", DIRECTORY := "│   ", EMPTY := "    " }

/-- Caller-facing options; `none` models an absent key. -/
structure GenerateTreeOptions where
  charset : Option Charset := none
  trailingDirSlash : Option Bool := none
  fullPath : Option Bool := none
  rootDot : Option Bool := none
  deriving DecidableEq, Repr

/-- `defaultOptions` of the source: every key present. -/
def defaultOptions : GenerateTreeOptions :=
  { charset := some .utf8, trailingDirSlash := some false,
    fullPath := some false, rootDot := some true }

/-- Options after the `{ ...defaultOptions, ...(options || {}) }` merge:
every key set, absent caller keys replaced by the defaults. -/
structure MergedOptions where
  charset : Charset
  trailingDirSlash : Bool
  fullPath : Bool
  rootDot : Bool
  deriving DecidableEq, Repr

def mergeOptions (o : GenerateTreeOptions) : MergedOptions :=
  { charset := o.charset.getD .utf8
    trailingDirSlash := o.trailingDirSlash.getD false
    fullPath := o.fullPath.getD false
    rootDot := o.rootDot.getD true }

/-- `isLastChild`: the source compares by object identity
(`parent.children[last] === structure`), which the arena renders as index
equality; an absent parent or an empty children array gives `false`. -/
def isLastChild (a : Arena) (i : Nat) : Bool :=
  match (getNode a i).parent with
  | none => false
  | some p => (getNode a p).children.getLast? == some i

/-- The `while (current && current.parent)` walk of `getAsciiLine`: one
continuation glyph per strict ancestor below the root, outermost first
(the source builds the same order with `unshift`). -/
def ancGlyphs (a : Arena) (ls : LineSet) : Nat → Option Nat → List String
  | _, none => []
  | 0, some _ => []
  | fuel+1, some c =>
    match (getNode a c).parent with
    | none => []
    | some _ =>
      ancGlyphs a ls fuel (getNode a c).parent ++
        [if isLastChild a c then ls.EMPTY else ls.DIRECTORY]

/-- The `while (current && current.name !== '.')` upward walk collecting
names, innermost last.  The source writes this loop twice, once inside
`getName` (starting at the node's parent) and once as `getFullPath` in
`tree-formatters.ts` (starting at the node itself); both are instances of
this one definition at different starting points. -/
def upChain (a : Arena) : Nat → Option Nat → List String
  | _, none => []
  | 0, some _ => []
  | fuel+1, some c =>
    if (getNode a c).name = "." then []
    else upChain a fuel (getNode a c).parent ++ [(getNode a c).name]

/-- `.substring(k)` on the strings at hand (all code points of the
connector glyphs are in the basic plane, so UTF-16 units coincide with
characters). -/
def strDrop (s : String) (k : Nat) : String := String.mk (s.toList.drop k)

/-- `/\/\s*$/.test name`: does the name end in a slash followed only by
whitespace? -/
def endsWithSlashWs (s : String) : Bool :=
  match s.toList.reverse.dropWhile jsWhitespace with
  | '/' :: _ => true
  | _ => false

/-- `getName` of generate-tree.ts. -/
def getName (a : Arena) (i : Nat) (o : MergedOptions) : String :=
  let nd := getNode a i
  let withSlash :=
    if o.trailingDirSlash && !nd.children.isEmpty && !(endsWithSlashWs nd.name)
    then nd.name ++ "/" else nd.name
  if o.fullPath && nd.parent.isSome then
    let parts := upChain a a.length nd.parent
    if !parts.isEmpty then String.intercalate "/" parts ++ "/" ++ withSlash
    else withSlash
  else withSlash

/-- `getAsciiLine`: `none` models the `null` return for a hidden root.  The
`options.charset` fallback and the unknown-charset throw of the source
are unreachable here because `MergedOptions.charset` is already a valid
charset value. -/
def getAsciiLine (a : Arena) (i : Nat) (o : MergedOptions) : Option String :=
  let ls := LINE_STRINGS o.charset
  let nd := getNode a i
  match nd.parent with
  | none => if o.rootDot then some nd.name else none
  | some _ =>
    let chunks := ancGlyphs a ls a.length nd.parent ++
      [(if isLastChild a i then ls.LAST_CHILD else ls.CHILD), getName a i o]
    some (strDrop (String.join chunks) (if o.rootDot then 0 else ls.CHILD.length))

/-- The `while (stack.length > 0)` loop of `generateTree`: pop, render,
push children (the source pushes them reversed onto an end-of-array
stack; prepending them in order to a head-of-list stack is the same
visit order).  One fuel unit per pop. -/
def genLoop (a : Arena) (o : MergedOptions) : Nat → List Nat → List String
  | 0, _ => []
  | _+1, [] => []
  | fuel+1, i :: rest =>
    match getAsciiLine a i o with
    | some l => l :: genLoop a o fuel ((getNode a i).children ++ rest)
    | none => genLoop a o fuel ((getNode a i).children ++ rest)

/-- The `lines` array of `generateTree` just before the final join.
`a.length` pops suffice for every arena `parseInput` produces, since the
loop visits each node exactly once. -/
def generateTreeLines (a : Arena) (o : GenerateTreeOptions) : List String :=
  genLoop a (mergeOptions o) a.length [0]

def generateTree (a : Arena) (o : GenerateTreeOptions) : String :=
  String.intercalate "\n" (generateTreeLines a o)

/-- The visit order of the `generateTree` loop, kept apart from the line
building for the proofs. -/
def visitLoop (a : Arena) : Nat → List Nat → List Nat
  | 0, _ => []
  | _+1, [] => []
  | fuel+1, i :: rest => i :: visitLoop a fuel ((getNode a i).children ++ rest)

/-- Recursive pre-order (specification-side mirror of the stack loop). -/
def preF (a : Arena) : Nat → Nat → List Nat
  | 0, _ => []
  | fuel+1, i => i :: (getNode a i).children.flatMap (preF a fuel)

/-! ## tree-formatters.ts -/

/-- The JSON values the serializers build before stringification. -/
inductive Js where
  | null : Js
  | str (s : String) : Js
  | arr (elems : List Js) : Js
  | obj (entries : List (String × Js)) : Js

/-- JavaScript property assignment `m[k] = v` on a plain object: an
existing key keeps its position and gets the new value, a fresh key is
appended. -/
def jsSet (kvs : List (String × Js)) (k : String) (v : Js) : List (String × Js) :=
  if kvs.any (fun p => p.1 == k) then
    kvs.map (fun p => if p.1 == k then (k, v) else p)
  else kvs ++ [(k, v)]

/-- `name.includes "dir"` -/
def strContains (s pat : String) : Bool := decide (pat.toList <:+: s.toList)

/-- `createNestedObject` of `formatNestedJson`. -/
def createNestedObject (a : Arena) : Nat → Nat → Js
  | 0, _ => .null
  | fuel+1, i =>
    let nd := getNode a i
    if nd.children.isEmpty then
      if strContains nd.name "dir" then .obj [] else .null
    else
      .obj (nd.children.foldl (fun m c => jsSet m (getNode a c).name (createNestedObject a fuel c)) [])

/-- The object `formatNestedJson` stringifies: a single-key object keyed by
the root's actual name. -/
def formatNestedJsonValue (a : Arena) : Js :=
  .obj [((getNode a 0).name, createNestedObject a a.length 0)]

def spacesN (n : Nat) : String := String.mk (List.replicate n ' ')

/-- JSON string quoting (the escapes relevant to tree names; names never
contain newlines because `splitInput` splits on them). -/
def jsonQuote (s : String) : String :=
  "\"" ++ String.join (s.toList.map (fun c =>
    if c = '"' then "\\\"" else if c = '\\' then "\\\\"
    else if c = '\n' then "\\n" else if c = '\r' then "\\r"
    else if c = '\t' then "\\t" else String.singleton c)) ++ "\""

/-- `JSON.stringify(v, null, 2)`. -/
def jsStringify : Nat → Js → Nat → String
  | 0, _, _ => ""
  | fuel+1, v, ind =>
    match v with
    | .null => "null"
    | .str s => jsonQuote s
    | .arr [] => "[]"
    | .arr es => "[\n" ++
        String.intercalate ",\n" (es.map (fun e => spacesN (ind+2) ++ jsStringify fuel e (ind+2))) ++
        "\n" ++ spacesN ind ++ "]"
    | .obj [] => "\x7b\x7d"
    | .obj kvs => "\x7b\n" ++
        String.intercalate ",\n" (kvs.map (fun kv =>
          spacesN (ind+2) ++ jsonQuote kv.1 ++ ": " ++ jsStringify fuel kv.2 (ind+2))) ++
        "\n" ++ spacesN ind ++ "\x7d"

def formatNestedJson (a : Arena) : String :=
  jsStringify (a.length + 2) (formatNestedJsonValue a) 0

/-- `createObjectWithChildren` of `formatArrayJson`. -/
def arrayJsonVal (a : Arena) : Nat → Nat → Js
  | 0, _ => .null
  | fuel+1, i =>
    let nd := getNode a i
    let nm := if nd.name = "." then "root" else nd.name
    let ty := if nd.children.isEmpty then "file" else "directory"
    if nd.children.isEmpty then .obj [("name", .str nm), ("type", .str ty)]
    else .obj [("name", .str nm), ("type", .str ty),
      ("children", .arr (nd.children.map (fun c => arrayJsonVal a fuel c)))]

def formatArrayJson (a : Arena) : String :=
  jsStringify (a.length + 2) (arrayJsonVal a a.length 0) 0

/-- `getFullPath` of tree-formatters.ts. -/
def getFullPath (a : Arena) (i : Nat) : String :=
  String.intercalate "/" (upChain a a.length (some i))

/-- The `files` list collected by `formatFlatJson`, in visit order. -/
def flatFiles (a : Arena) : Nat → Nat → List String
  | 0, _ => []
  | fuel+1, i =>
    let nd := getNode a i
    (if nd.name != "." && nd.children.isEmpty then [getFullPath a i] else []) ++
      nd.children.flatMap (flatFiles a fuel)

/-- The `directories` list collected by `formatFlatJson`, in visit order. -/
def flatDirs (a : Arena) : Nat → Nat → List String
  | 0, _ => []
  | fuel+1, i =>
    let nd := getNode a i
    (if nd.name != "." && !nd.children.isEmpty then [getFullPath a i] else []) ++
      nd.children.flatMap (flatDirs a fuel)

def formatFlatJson (a : Arena) : String :=
  jsStringify (a.length + 2)
    (.obj [("files", .arr ((flatFiles a a.length 0).map
            (fun p => .obj [("path", .str p), ("type", .str "file")]))),
           ("directories", .arr ((flatDirs a a.length 0).map
            (fun p => .obj [("path", .str p)])))]) 0

/-- `jsonToYaml`. -/
def jsonToYaml : Nat → Js → Nat → String
  | 0, _, _ => ""
  | fuel+1, v, ind =>
    match v with
    | .obj kvs => String.join (kvs.map (fun kv =>
        match kv.2 with
        | .null => spacesN ind ++ kv.1 ++ ": null\n"
        | .obj _ => spacesN ind ++ kv.1 ++ ":\n" ++ jsonToYaml fuel kv.2 (ind + 2)
        | _ => ""))
    | _ => ""

/-- `formatYaml`: the nested-JSON object with its single top-level key
renamed to `root` (the `JSON.parse(formatNestedJson(...))` round trip of
the source is the identity on the built object). -/
def formatYaml (a : Arena) : String :=
  let inner := match formatNestedJsonValue a with
    | .obj kvs => ((kvs.head?).map Prod.snd).getD .null
    | _ => .null
  jsonToYaml (a.length + 2) (.obj [("root", inner)]) 0

/-- The chained `.replace(/&/g,...)...` of `formatXml`; no later
replacement reintroduces an earlier target, so the chain equals this
single per-character map. -/
def xmlEscape (s : String) : String :=
  String.join (s.toList.map (fun c =>
    if c = '&' then "&amp;" else if c = '<' then "&lt;"
    else if c = '>' then "&gt;" else if c = '"' then "&quot;"
    else if c = '\'' then "&apos;" else String.singleton c))

/-- `createXmlElement`. -/
def createXmlElement (a : Arena) : Nat → Nat → Nat → String
  | 0, _, _ => ""
  | fuel+1, i, ind =>
    let nd := getNode a i
    let nm := xmlEscape (if nd.name = "." then "root" else nd.name)
    if nd.children.isEmpty then
      spacesN ind ++ "<file name=\"" ++ nm ++ "\" />\n"
    else
      spacesN ind ++ "<directory name=\"" ++ nm ++ "\">\n" ++
        String.join (nd.children.map (fun c => createXmlElement a fuel c (ind + 2))) ++
        spacesN ind ++ "</directory>\n"

def formatXml (a : Arena) : String :=
  "<?xml version=\"1.0\" encoding=\"UTF-8\"?>\n" ++ createXmlElement a a.length 0 0

/-- The `paths` array of `formatDot`, in visit order, before sorting. -/
def dotCollect (a : Arena) : Nat → Nat → List String
  | 0, _ => []
  | fuel+1, i =>
    let nd := getNode a i
    (if nd.name != "." then [getFullPath a i] else []) ++
      nd.children.flatMap (dotCollect a fuel)

/-- JavaScript's default `Array.prototype.sort` comparison: lexicographic
on UTF-16 code units. -/
def utf16Units (s : String) : List Nat :=
  s.toList.flatMap (fun c =>
    if c.val.toNat ≤ 0xffff then [c.val.toNat]
    else [0xd800 + (c.val.toNat - 0x10000) / 0x400, 0xdc00 + (c.val.toNat - 0x10000) % 0x400])

def natListLe : List Nat → List Nat → Bool
  | [], _ => true
  | _ :: _, [] => false
  | x :: xs, y :: ys => if x < y then true else if y < x then false else natListLe xs ys

def jsLeb (x y : String) : Bool := natListLe (utf16Units x) (utf16Units y)

def formatDot (a : Arena) : String :=
  String.intercalate "\n" ((dotCollect a a.length 0).mergeSort jsLeb)

/-- `createMarkdownList`. -/
def createMarkdownList (a : Arena) : Nat → Nat → Nat → String
  | 0, _, _ => ""
  | fuel+1, i, ind =>
    let nd := getNode a i
    if nd.name = "." then
      String.join (nd.children.map (fun c => createMarkdownList a fuel c ind))
    else
      let suffix := if nd.children.isEmpty then "" else "/"
      spacesN ind ++ "* " ++ nd.name ++ suffix ++ "\n" ++
        String.join (nd.children.map (fun c => createMarkdownList a fuel c (ind + 2)))

def formatMarkdown (a : Arena) : String := createMarkdownList a a.length 0 0

/-- `formatTree`: dispatch on the runtime format string. -/
def formatTree (a : Arena) (format : String) (options : GenerateTreeOptions) : String :=
  if format = "ascii" then generateTree a { options with charset := some Charset.ascii }
  else if format = "utf-8" then generateTree a { options with charset := some Charset.utf8 }
  else if format = "json-nested" then formatNestedJson a
  else if format = "json-array" then formatArrayJson a
  else if format = "json-flat" then formatFlatJson a
  else if format = "yaml" then formatYaml a
  else if format = "xml" then formatXml a
  else if format = "dot" then formatDot a
  else if format = "markdown" then formatMarkdown a
  else generateTree a options

/-! ## Claim-statement helpers -/

/-- The nine format identifiers `formatTree` recognizes. -/
def knownFormats : List String :=
  ["ascii", "utf-8", "json-nested", "json-array", "json-flat", "yaml", "xml", "dot", "markdown"]

/-- Modelled from the spec: "Any unrecognized `format_id` falls back to the
Line-Drawing Renderer with caller-supplied options and default charset",
read as the renderer invoked with the caller's options but the charset
forced to the default. -/
def fallbackPerSpec (a : Arena) (options : GenerateTreeOptions) : String :=
  generateTree a { options with charset := defaultOptions.charset }

/-- `false` exactly on the error thrown by the stack-underflow branch of
`parseInput` (line `if (path.length === 0)`). -/
def underflowFree : Except ParseErr Arena → Bool
  | .error (.badIndentUnderflow _) => false
  | _ => true

/-- The `k`-fold iterate of the `parent` reference. -/
def ancestorAt (a : Arena) : Nat → Nat → Option Nat
  | 0, d => some d
  | k+1, d =>
    match (getNode a d).parent with
    | none => none
    | some p => ancestorAt a k p

/-- The names along the parent chain from just below `ancestorAt a k d`
down to `d` itself, outermost first (the chain that remains when the
path of `d` is truncated at its `k`-th ancestor). -/
def belowNames (a : Arena) : Nat → Nat → List String
  | 0, _ => []
  | k+1, d =>
    match (getNode a d).parent with
    | none => [(getNode a d).name]
    | some p => belowNames a k p ++ [(getNode a d).name]

/-! # Proofs -/

/-! ## Small list facts -/

theorem dropWhile_ne_nil_of_getLast {α} (q : α → Bool) {l : List α} {x : α}
    (hl : l.getLast? = some x) (hx : q x = false) : l.dropWhile q ≠ [] := by
  intro h
  rw [List.dropWhile_eq_nil_iff] at h
  exact absurd (h x (List.mem_of_getLast?_eq_some hl)) (by simp [hx])

theorem suffix_getLast? {α} {l₁ l₂ : List α} (h : l₁ <:+ l₂) (hne : l₁ ≠ []) :
    l₂.getLast? = l₁.getLast? := by
  obtain ⟨t, rfl⟩ := h
  rw [List.getLast?_append]
  cases hl : l₁.getLast? with
  | none => exact absurd (List.getLast?_eq_none_iff.mp hl) hne
  | some x => rfl

theorem chain'_mono_mem {α} {R S : α → α → Prop} :
    ∀ {l : List α}, l.Chain' R → (∀ x ∈ l, ∀ y ∈ l, R x y → S x y) → l.Chain' S
  | [], _, _ => List.chain'_nil
  | [_], _, _ => List.chain'_singleton _
  | x :: y :: l, h, hmono => by
    rw [List.chain'_cons] at h ⊢
    refine ⟨hmono x (by simp) y (by simp) h.1, chain'_mono_mem h.2 ?_⟩
    intro u hu v hv
    exact hmono u (by simp [hu]) v (by simp [hv])

/-! ## splitInput facts -/

theorem splitInput_item_facts {input : String} {s : FsNode} (h : s ∈ splitInput input) :
    s.children = [] ∧ s.parent = none ∧ 0 ≤ s.indentCount := by
  unfold splitInput at h
  obtain ⟨line, _, rfl⟩ := List.mem_map.mp h
  refine ⟨rfl, rfl, ?_⟩
  exact Int.ofNat_nonneg _

theorem splitInput_empty : splitInput "" = [] := by rfl

/-! ## C1 -/

/-- C1: for the four-line input `app / src / index.js / package.json`
(two-space indents), `parseInput` succeeds and `generateTree` with the
default options returns exactly the five expected lines joined by single
newlines, with no trailing newline. -/
theorem c1_default_scenario :
    (parseInput "app\n  src\n    index.js\n  package.json").map
        (fun a => generateTree a {}) =
      Except.ok ".\n└── app\n    ├── src\n    │   └── index.js\n    └── package.json" := by
  rfl

/-! ## C6 -/

/-- C6 counterexample: the claim says an unrecognized format id renders
with the caller-supplied options and the *default* charset; but when the
caller's options themselves carry `charset: ascii`, the fallback branch
`generateTree(structure, options)` keeps the caller's charset, so the
output differs from the default-charset rendering. -/
theorem c6_counterexample :
    parseInput "a" = .ok [⟨".", [1], -1, none⟩, ⟨"a", [], 0, some 0⟩] ∧
    formatTree [⟨".", [1], -1, none⟩, ⟨"a", [], 0, some 0⟩] "bogus"
        { charset := some Charset.ascii } ≠
      fallbackPerSpec [⟨".", [1], -1, none⟩, ⟨"a", [], 0, some 0⟩]
        { charset := some Charset.ascii } := by
  exact ⟨by rfl, by decide⟩

/-- C6 (amended): for every tree and every unrecognized format identifier,
`formatTree` returns exactly `generateTree` applied to the caller-supplied
options unchanged — the default charset takes effect only when the
caller's options do not specify a charset. -/
theorem c6_unknown_format_fallback (a : Arena) (format : String)
    (options : GenerateTreeOptions) (h : format ∉ knownFormats) :
    formatTree a format options = generateTree a options := by
  simp only [knownFormats, List.mem_cons, List.not_mem_nil, or_false, not_or] at h
  obtain ⟨h1, h2, h3, h4, h5, h6, h7, h8, h9⟩ := h
  unfold formatTree
  rw [if_neg h1, if_neg h2, if_neg h3, if_neg h4, if_neg h5, if_neg h6, if_neg h7,
    if_neg h8, if_neg h9]

theorem c6_unknown_format_fallback_witness :
    formatTree [⟨".", [1], -1, none⟩, ⟨"a", [], 0, some 0⟩] "bogus" {} =
      generateTree [⟨".", [1], -1, none⟩, ⟨"a", [], 0, some 0⟩] {} :=
  c6_unknown_format_fallback _ _ _ (by decide)

/-! ## C8 -/

/-- C8: the empty string is rejected with the invalid-input error, while
every non-empty input all of whose lines are whitespace-only parses
successfully to a root with zero children. -/
theorem c8_empty_vs_blank :
    parseInput "" = .error ParseErr.emptyInput ∧
    (∀ input : String, input ≠ "" →
      (∀ cs ∈ lineSegs input.toList, cs.all jsWhitespace = true) →
      parseInput input = .ok [rootNode] ∧ rootNode.children = []) := by
  refine ⟨rfl, fun input hne hws => ⟨?_, rfl⟩⟩
  have h1 : (jsLines input).filter (fun l => !(onlyWhitespace l)) = [] := by
    rw [List.filter_eq_nil_iff]
    intro l hl
    unfold jsLines at hl
    obtain ⟨cs, hcs, rfl⟩ := List.mem_map.mp hl
    have hm : cs ∈ lineSegs input.toList := List.mem_of_mem_filter hcs
    have : onlyWhitespace (String.mk cs) = true := hws cs hm
    simp [this]
  have hsplit : splitInput input = [] := by
    unfold splitInput
    rw [h1]
    rfl
  unfold parseInput
  rw [if_neg hne, hsplit]
  rfl

theorem c8_witness :
    parseInput " \n\t " = Except.ok [rootNode] ∧ rootNode.children = [] :=
  c8_empty_vs_blank.2 " \n\t " (by decide) (by decide)

/-! ## C2 -/

theorem parseStep_eq_error_jump {st : Arena × List Nat} {s : FsNode} {nm : String} :
    parseStep st s = .error (.badIndentJump nm) ↔ jumpCond st.1 st.2 s ∧ nm = s.name := by
  unfold parseStep
  by_cases h : jumpCond st.1 st.2 s
  · simp only [if_pos h]
    constructor
    · intro he
      injection he with he'
      injection he' with he''
      exact ⟨h, he''.symm⟩
    · intro ⟨_, rfl⟩; rfl
  · simp only [if_neg h]
    constructor
    · intro he
      rcases hd : st.2.dropWhile (fun i => decide ((getNode st.1 i).indentCount ≥ s.indentCount)) with
        _ | ⟨p, rest⟩ <;> rw [hd] at he <;> simp_all
    · intro ⟨hc, _⟩; exact absurd hc h

theorem runItems_eq_error_jump {nm : String} :
    ∀ (items : List FsNode) (st : Arena × List Nat),
      runItems st items = .error (.badIndentJump nm) ↔
        ∃ pre s post st2, items = pre ++ s :: post ∧ runItems st pre = .ok st2 ∧
          jumpCond st2.1 st2.2 s ∧ nm = s.name := by
  intro items
  induction items with
  | nil =>
    intro st
    simp [runItems]
  | cons s rest ih =>
    intro st
    constructor
    · intro h
      unfold runItems at h
      cases hs : parseStep st s with
      | ok st1 =>
        rw [hs] at h
        obtain ⟨pre, s', post, st3, hsplit, hpre, hc, hn⟩ := (ih st1).mp h
        refine ⟨s :: pre, s', post, st3, by rw [hsplit]; rfl, ?_, hc, hn⟩
        unfold runItems
        rw [hs]
        exact hpre
      | error e =>
        rw [hs] at h
        injection h with h'
        subst h'
        obtain ⟨hc, hn⟩ := parseStep_eq_error_jump.mp hs
        exact ⟨[], s, rest, st, rfl, rfl, hc, hn⟩
    · intro ⟨pre, s', post, st2, hsplit, hpre, hc, hn⟩
      cases pre with
      | nil =>
        simp only [List.nil_append, List.cons.injEq] at hsplit
        obtain ⟨rfl, rfl⟩ := hsplit
        injection hpre with hpre'
        subst hpre'
        unfold runItems
        rw [parseStep_eq_error_jump.mpr ⟨hc, hn⟩]
      | cons q pre' =>
        simp only [List.cons_append, List.cons.injEq] at hsplit
        obtain ⟨rfl, hsplit'⟩ := hsplit
        unfold runItems at hpre ⊢
        cases hs : parseStep st s with
        | ok st1 =>
          rw [hs] at hpre
          exact (ih st1).mpr ⟨pre', s', post, st2, hsplit', hpre, hc, hn⟩
        | error e =>
          rw [hs] at hpre
          exact Except.noConfusion hpre

theorem parseInput_error_iff {input : String} {e : ParseErr} :
    parseInput input = .error e ↔
      (input = "" ∧ e = .emptyInput) ∨
      (input ≠ "" ∧ runItems ([rootNode], [0]) (splitInput input) = .error e) := by
  unfold parseInput
  by_cases he : input = ""
  · rw [if_pos he]
    constructor
    · intro h
      injection h with h'
      exact Or.inl ⟨he, h'.symm⟩
    · intro h
      rcases h with ⟨_, rfl⟩ | ⟨hne, _⟩
      · rfl
      · exact absurd he hne
  · rw [if_neg he]
    cases hr : runItems ([rootNode], [0]) (splitInput input) with
    | ok st =>
      obtain ⟨a, path⟩ := st
      constructor
      · intro h
        exact Except.noConfusion h
      · intro h
        rcases h with ⟨hemp, _⟩ | ⟨_, hrun⟩
        · exact absurd hemp he
        · exact Except.noConfusion hrun
    | error e' =>
      constructor
      · intro h
        injection h with h'
        exact Or.inr ⟨he, congrArg Except.error h'⟩
      · intro h
        rcases h with ⟨hemp, _⟩ | ⟨_, hrun⟩
        · exact absurd hemp he
        · injection hrun with h'
          exact congrArg Except.error h'

/-- C2: `parseInput` fails with the "bad indentation" jump error naming
`nm` exactly when the first offending item of the input — the item whose
indent exceeds the indent of the then-current stack top by more than 2
while that top is not the root sentinel — is named `nm`; and the error's
message has exactly the documented text. -/
theorem c2_bad_indentation (input nm : String) :
    (parseInput input = .error (.badIndentJump nm) ↔
      ∃ pre s post st, splitInput input = pre ++ s :: post ∧
        runItems ([rootNode], [0]) pre = .ok st ∧
        jumpCond st.1 st.2 s ∧ nm = s.name) ∧
    (ParseErr.badIndentJump nm).message = "Bad indentation found at item: " ++ nm := by
  refine ⟨?_, rfl⟩
  rw [parseInput_error_iff]
  constructor
  · intro h
    rcases h with ⟨_, h⟩ | ⟨_, h⟩
    · cases h
    · exact (runItems_eq_error_jump _ _).mp h
  · intro h
    obtain ⟨pre, s, post, st, hsplit, _, _, _⟩ := h
    right
    have hne : input ≠ "" := by
      intro hcon
      rw [hcon, splitInput_empty] at hsplit
      exact absurd hsplit (by simp)
    exact ⟨hne, (runItems_eq_error_jump _ _).mpr ⟨pre, s, post, st, hsplit, by assumption,
      by assumption, by assumption⟩⟩

theorem c2_witness :
    parseInput "a\n      b" = .error (.badIndentJump "b") := by
  refine ((c2_bad_indentation "a\n      b" "b").1).mpr ?_
  refine ⟨[⟨"a", [], 0, none⟩], ⟨"b", [], 6, none⟩, [],
    ([⟨".", [1], -1, none⟩, ⟨"a", [], 0, some 0⟩], [1, 0]), by rfl, by rfl, by decide, rfl⟩

/-! ## The arena after one successful parse step -/

/-- The arena mutation of one successful loop iteration: the fresh node
(index `a.length`) is appended and recorded as last child of `p`. -/
def stepArena (a : Arena) (p : Nat) (s : FsNode) : Arena :=
  (a.set p { getNode a p with children := (getNode a p).children ++ [a.length] })
    ++ [{ s with parent := some p }]

theorem parseStep_eq_ok {a : Arena} {path : List Nat} {s : FsNode} {st' : Arena × List Nat} :
    parseStep (a, path) s = .ok st' ↔
      ¬jumpCond a path s ∧
      ∃ p rest,
        path.dropWhile (fun i => decide ((getNode a i).indentCount ≥ s.indentCount)) = p :: rest ∧
        st' = (stepArena a p s, a.length :: p :: rest) := by
  unfold parseStep
  by_cases h : jumpCond a path s
  · simp only [if_pos h]
    constructor
    · intro he; exact Except.noConfusion he
    · intro ⟨hn, _⟩; exact absurd h hn
  · simp only [if_neg h]
    cases hd : path.dropWhile (fun i => decide ((getNode a i).indentCount ≥ s.indentCount)) with
    | nil =>
      constructor
      · intro he; exact Except.noConfusion he
      · intro ⟨_, p, rest, hpr, _⟩; exact List.noConfusion hpr
    | cons p rest =>
      constructor
      · intro he
        injection he with he'
        exact ⟨h, p, rest, rfl, by rw [← he']; rfl⟩
      · intro ⟨_, p', rest', hpr, hst⟩
        obtain ⟨rfl, rfl⟩ := List.cons.injEq .. |>.mp hpr
        rw [hst]
        rfl

theorem stepArena_length (a : Arena) (p : Nat) (s : FsNode) :
    (stepArena a p s).length = a.length + 1 := by
  unfold stepArena
  simp

theorem getNode_out {a : Arena} {j : Nat} (hj : a.length ≤ j) : getNode a j = defaultNode := by
  unfold getNode
  rw [List.getElem?_eq_none (by simpa using hj)]
  rfl

theorem getNode_stepArena_lt {a : Arena} {p : Nat} {s : FsNode} {j : Nat}
    (hj : j < a.length) (hne : j ≠ p) : getNode (stepArena a p s) j = getNode a j := by
  unfold stepArena getNode
  rw [List.getElem?_append_left (by simpa using hj), List.getElem?_set_ne (by omega)]

theorem getNode_stepArena_p {a : Arena} {p : Nat} {s : FsNode} (hp : p < a.length) :
    getNode (stepArena a p s) p =
      { getNode a p with children := (getNode a p).children ++ [a.length] } := by
  unfold stepArena getNode
  rw [List.getElem?_append_left (by simpa using hp), List.getElem?_set_self (by simpa using hp)]
  rfl

theorem getNode_stepArena_n (a : Arena) (p : Nat) (s : FsNode) :
    getNode (stepArena a p s) a.length = { s with parent := some p } := by
  unfold stepArena getNode
  rw [List.getElem?_append_right (by simp), List.length_set]
  simp

theorem getNode_stepArena_gt {a : Arena} {p : Nat} {s : FsNode} {j : Nat}
    (hj : a.length < j) : getNode (stepArena a p s) j = defaultNode := by
  apply getNode_out
  rw [stepArena_length]
  omega

theorem stepArena_name {a : Arena} {p : Nat} {s : FsNode} {j : Nat}
    (hp : p < a.length) (hj : j < a.length) :
    (getNode (stepArena a p s) j).name = (getNode a j).name := by
  by_cases hne : j = p
  · subst hne; rw [getNode_stepArena_p hp]
  · rw [getNode_stepArena_lt hj hne]

theorem stepArena_indent {a : Arena} {p : Nat} {s : FsNode} {j : Nat}
    (hp : p < a.length) (hj : j < a.length) :
    (getNode (stepArena a p s) j).indentCount = (getNode a j).indentCount := by
  by_cases hne : j = p
  · subst hne; rw [getNode_stepArena_p hp]
  · rw [getNode_stepArena_lt hj hne]

theorem stepArena_parent {a : Arena} {p : Nat} {s : FsNode} {j : Nat}
    (hp : p < a.length) (hj : j < a.length) :
    (getNode (stepArena a p s) j).parent = (getNode a j).parent := by
  by_cases hne : j = p
  · subst hne; rw [getNode_stepArena_p hp]
  · rw [getNode_stepArena_lt hj hne]

theorem stepArena_children_ne {a : Arena} {p : Nat} {s : FsNode} {j : Nat}
    (hs0 : s.children = []) (hne : j ≠ p) :
    (getNode (stepArena a p s) j).children = (getNode a j).children := by
  rcases Nat.lt_trichotomy j a.length with hj | hj | hj
  · rw [getNode_stepArena_lt hj hne]
  · subst hj
    rw [getNode_stepArena_n, getNode_out (Nat.le_refl _)]
    simpa using hs0
  · rw [getNode_stepArena_gt hj, getNode_out (Nat.le_of_lt hj)]

/-! ## preF facts -/

theorem flatMap_congr_mem {α β} {f g : α → List β} :
    ∀ {l : List α}, (∀ c ∈ l, f c = g c) → l.flatMap f = l.flatMap g
  | [], _ => rfl
  | c :: l, h => by
    rw [List.flatMap_cons, List.flatMap_cons, h c (by simp),
      flatMap_congr_mem (fun x hx => h x (by simp [hx]))]

theorem preF_mem_ge {a : Arena} (hcb : ∀ i, ∀ j ∈ (getNode a i).children, i < j) :
    ∀ f i x, x ∈ preF a f i → i ≤ x := by
  intro f
  induction f with
  | zero => intro i x hx; cases hx
  | succ f ih =>
    intro i x hx
    unfold preF at hx
    rcases List.mem_cons.mp hx with rfl | hx'
    · exact Nat.le_refl _
    · obtain ⟨c, hc, hxc⟩ := List.mem_flatMap.mp hx'
      exact Nat.le_of_lt (Nat.lt_of_lt_of_le (hcb i c hc) (ih c x hxc))

theorem preF_stable {a : Arena}
    (hcb : ∀ i, i < a.length → ∀ j ∈ (getNode a i).children, i < j ∧ j < a.length) :
    ∀ f g i, i ≤ a.length → a.length + 1 - i ≤ f → a.length + 1 - i ≤ g →
      preF a f i = preF a g i := by
  intro f
  induction f with
  | zero => intro g i hi hf hg; omega
  | succ f ih =>
    intro g i hi hf hg
    have hg1 : 1 ≤ g := by omega
    obtain ⟨g', rfl⟩ : ∃ g', g = g' + 1 := ⟨g - 1, by omega⟩
    unfold preF
    rcases Nat.lt_or_ge i a.length with hlt | hge
    · congr 1
      apply flatMap_congr_mem
      intro c hc
      obtain ⟨hic, hcn⟩ := hcb i hlt c hc
      exact ih g' c (Nat.le_of_lt hcn) (by omega) (by omega)
    · rw [getNode_out hge]
      rfl

theorem preF_stepArena {a : Arena} {p : Nat} {s : FsNode} (hs0 : s.children = []) :
    ∀ f j, p ∉ preF a f j → preF (stepArena a p s) f j = preF a f j := by
  intro f
  induction f with
  | zero => intro j _; rfl
  | succ f ih =>
    intro j hj
    have hne : j ≠ p := by
      intro h
      exact hj (by rw [h]; unfold preF; simp)
    unfold preF
    rw [stepArena_children_ne hs0 hne]
    congr 1
    apply flatMap_congr_mem
    intro c hc
    apply ih
    intro hp
    exact hj (by unfold preF; simp; right; exact ⟨c, hc, hp⟩)

/-! ## The parse-loop invariant -/

/-- A node on the open spine has its whole subtree at the arena's tail:
its pre-order is exactly the index interval from itself to the end. -/
def SpineAt (a : Arena) (x : Nat) : Prop :=
  ∀ f, a.length - x ≤ f → preF a f x = List.range' x (a.length - x)

/-- Everything `parseInput`'s loop maintains about its state. -/
structure ParseInv (a : Arena) (path : List Nat) : Prop where
  nlen : 1 ≤ a.length
  rootName : (getNode a 0).name = "."
  rootIndent : (getNode a 0).indentCount = -1
  rootParent : (getNode a 0).parent = none
  nodeParent : ∀ j, 1 ≤ j → j < a.length → ∃ p, (getNode a j).parent = some p ∧ p < j
  nodeIndent : ∀ j, 1 ≤ j → j < a.length → 0 ≤ (getNode a j).indentCount
  childSorted : ∀ i, (getNode a i).children.Chain' (· < ·)
  childBounds : ∀ i, ∀ j, j ∈ (getNode a i).children → i < j ∧ j < a.length
  childParent : ∀ i, ∀ j, j ∈ (getNode a i).children → (getNode a j).parent = some i
  parentChild : ∀ j p, j < a.length → (getNode a j).parent = some p → j ∈ (getNode a p).children
  pathNe : path ≠ []
  pathLast : path.getLast? = some 0
  pathMem : ∀ x ∈ path, x < a.length
  pathDec : path.Chain' (· > ·)
  pathPar : path.Chain' (fun x y =>
    (getNode a x).parent = some y ∧ (getNode a y).children.getLast? = some x)
  spine : ∀ x ∈ path, SpineAt a x

theorem getNode_singleton_root : getNode [rootNode] 0 = rootNode := rfl

theorem getNode_singleton_other {j : Nat} (hj : 1 ≤ j) :
    getNode [rootNode] j = defaultNode :=
  getNode_out (by simpa using hj)

theorem singleton_children_nil (i : Nat) : (getNode [rootNode] i).children = [] := by
  rcases Nat.lt_or_ge i 1 with h | h
  · obtain rfl : i = 0 := by omega
    rfl
  · rw [getNode_singleton_other h]
    rfl

theorem parseInv_init : ParseInv [rootNode] [0] := by
  have hlen : ([rootNode] : Arena).length = 1 := rfl
  refine ⟨Nat.le_refl _, rfl, rfl, rfl, ?_, ?_, ?_, ?_, ?_, ?_, by simp, rfl, ?_, ?_, ?_, ?_⟩
  · intro j h1 h2
    rw [hlen] at h2
    omega
  · intro j h1 h2
    rw [hlen] at h2
    omega
  · intro i
    rw [singleton_children_nil]
    exact List.chain'_nil
  · intro i j hj
    rw [singleton_children_nil] at hj
    cases hj
  · intro i j hj
    rw [singleton_children_nil] at hj
    cases hj
  · intro j p hj hp
    rw [hlen] at hj
    obtain rfl : j = 0 := by omega
    cases hp
  · intro x hx
    simp at hx
    subst hx
    rw [hlen]
    omega
  · exact List.chain'_singleton _
  · exact List.chain'_singleton _
  · intro x hx
    simp at hx
    subst hx
    intro f hf
    rw [hlen] at hf ⊢
    obtain ⟨f', rfl⟩ : ∃ f', f = f' + 1 := ⟨f - 1, by omega⟩
    unfold preF
    rw [singleton_children_nil]
    rfl

theorem childBounds_all {a : Arena}
    (hcb : ∀ i, i < a.length → ∀ j ∈ (getNode a i).children, i < j ∧ j < a.length) :
    ∀ i, ∀ j ∈ (getNode a i).children, i < j := by
  intro i j hj
  rcases Nat.lt_or_ge i a.length with h | h
  · exact (hcb i h j hj).1
  · rw [getNode_out h] at hj
    cases hj

theorem spine_step_base {a : Arena} {p : Nat} {s : FsNode}
    (hs0 : s.children = [])
    (hcb : ∀ i, i < a.length → ∀ j ∈ (getNode a i).children, i < j ∧ j < a.length)
    (hpn : p < a.length)
    (hSp : SpineAt a p) :
    ∀ f, a.length + 1 - p ≤ f →
      preF (stepArena a p s) f p = List.range' p (a.length + 1 - p) := by
  intro f hf
  set n := a.length with hn
  obtain ⟨f', rfl⟩ : ∃ f', f = f' + 1 := ⟨f - 1, by omega⟩
  have hf' : n - p ≤ f' := by omega
  unfold preF
  rw [getNode_stepArena_p hpn]
  show p :: ((getNode a p).children ++ [n]).flatMap (preF (stepArena a p s) f') = _
  rw [List.flatMap_append]
  -- the fresh node's subtree is just itself
  have hnref : preF (stepArena a p s) f' n = [n] := by
    obtain ⟨f'', rfl⟩ : ∃ f'', f' = f'' + 1 := ⟨f' - 1, by omega⟩
    unfold preF
    rw [getNode_stepArena_n]
    show n :: (s.children.flatMap _) = [n]
    rw [hs0]
    rfl
  have hflat1 : ([n] : List Nat).flatMap (preF (stepArena a p s) f') = [n] := by
    rw [List.flatMap_cons]
    simp [hnref]
  rw [hflat1]
  -- the old children's subtrees are untouched
  have hold : preF a (n + 5) p = List.range' p (n - p) := hSp (n + 5) (by omega)
  have holdu : p :: (getNode a p).children.flatMap (preF a (n + 4)) = List.range' p (n - p) := by
    rw [← hold]
    rfl
  have hchild : ∀ c ∈ (getNode a p).children,
      preF (stepArena a p s) f' c = preF a (n + 4) c := by
    intro c hc
    obtain ⟨hpc, hcn⟩ := hcb p hpn c hc
    have hloc : preF (stepArena a p s) f' c = preF a f' c := by
      apply preF_stepArena hs0
      intro hmem
      exact absurd (preF_mem_ge (childBounds_all hcb) f' c p hmem) (by omega)
    rw [hloc]
    exact preF_stable hcb f' (n + 4) c (by omega) (by omega) (by omega)
  rw [flatMap_congr_mem hchild]
  have hcount : n - p = (n - p - 1) + 1 := by omega
  rw [hcount, List.range'_succ] at holdu
  have hflat2 : (getNode a p).children.flatMap (preF a (n + 4)) =
      List.range' (p + 1) (n - p - 1) := by
    exact (List.cons.injEq .. |>.mp holdu).2
  rw [hflat2]
  have : List.range' (p + 1) (n - p - 1) ++ [n] = List.range' (p + 1) (n - p) := by
    have h1 : ([n] : List Nat) = List.range' (p + 1 + (n - p - 1)) 1 := by
      have : p + 1 + (n - p - 1) = n := by omega
      rw [this]
      rfl
    rw [h1, List.range'_append_1]
    congr 1
    omega
  rw [this]
  have : n + 1 - p = (n - p) + 1 := by omega
  rw [this, List.range'_succ]

theorem spine_step_up {a : Arena} {p x y : Nat} {s : FsNode}
    (hs0 : s.children = [])
    (hcb : ∀ i, i < a.length → ∀ j ∈ (getNode a i).children, i < j ∧ j < a.length)
    (hy : y < a.length)
    (hyx : y < x) (hxp : x ≤ p)
    (hlast : (getNode a y).children.getLast? = some x)
    (hSy : SpineAt a y) (hSx : SpineAt a x)
    (hNx : ∀ f, a.length + 1 - x ≤ f →
      preF (stepArena a p s) f x = List.range' x (a.length + 1 - x)) :
    ∀ f, a.length + 1 - y ≤ f →
      preF (stepArena a p s) f y = List.range' y (a.length + 1 - y) := by
  intro f hf
  set n := a.length with hn
  have hx : x < n := (hcb y hy x (List.mem_of_getLast?_eq_some hlast)).2
  obtain ⟨f', rfl⟩ : ∃ f', f = f' + 1 := ⟨f - 1, by omega⟩
  have hf' : n - y ≤ f' := by omega
  obtain ⟨init, hinit⟩ := List.getLast?_eq_some_iff.mp hlast
  -- decompose the old spine fact at `y`
  have hold : preF a (n + 5) y = List.range' y (n - y) := hSy (n + 5) (by omega)
  have holdu : y :: (getNode a y).children.flatMap (preF a (n + 4)) = List.range' y (n - y) := by
    rw [← hold]
    rfl
  have holdx : preF a (n + 4) x = List.range' x (n - x) := hSx (n + 4) (by omega)
  have hsplitr : List.range' y (n - y) =
      y :: (List.range' (y + 1) (x - y - 1) ++ List.range' x (n - x)) := by
    have hx' : y + 1 + (x - y - 1) = x := by omega
    have h1 := List.range'_append_1 (y + 1) (x - y - 1) (n - x)
    rw [hx'] at h1
    have h2c : n - x + (x - y - 1) = n - y - 1 := by omega
    rw [h2c] at h1
    have h5 := List.range'_succ y (n - y - 1) 1
    have hc : n - y - 1 + 1 = n - y := by omega
    rw [hc] at h5
    rw [h1, h5]
  have hflatOld : init.flatMap (preF a (n + 4)) = List.range' (y + 1) (x - y - 1) := by
    rw [hinit, List.flatMap_append] at holdu
    rw [hsplitr] at holdu
    have h2 := (List.cons.injEq .. |>.mp holdu).2
    have h3 : ([x] : List Nat).flatMap (preF a (n + 4)) = preF a (n + 4) x := by
      rw [List.flatMap_cons]
      simp
    rw [h3, holdx] at h2
    exact (List.append_left_inj _).mp h2
  -- transfer the untouched subtrees of `init` to the new arena
  have hchild : ∀ c ∈ init,
      preF (stepArena a p s) f' c = preF a (n + 4) c := by
    intro c hc
    have hcmem : c ∈ (getNode a y).children := by
      rw [hinit]
      exact List.mem_append_left _ hc
    obtain ⟨hyc, hcn⟩ := hcb y hy c hcmem
    have hstab : preF a f' c = preF a (n + 4) c :=
      preF_stable hcb f' (n + 4) c (by omega) (by omega) (by omega)
    have hsub : ∀ z ∈ preF a (n + 4) c, z < x := by
      intro z hz
      have : z ∈ init.flatMap (preF a (n + 4)) := List.mem_flatMap.mpr ⟨c, hc, hz⟩
      rw [hflatOld] at this
      have := List.mem_range'_1.mp this
      omega
    have hploc : p ∉ preF a f' c := by
      rw [hstab]
      intro hmem
      exact absurd (hsub p hmem) (by omega)
    rw [preF_stepArena hs0 f' c hploc]
    exact hstab
  -- assemble
  unfold preF
  have hyp : y ≠ p := by omega
  rw [stepArena_children_ne hs0 hyp, hinit, List.flatMap_append, flatMap_congr_mem hchild,
    hflatOld]
  have h3 : ([x] : List Nat).flatMap (preF (stepArena a p s) f') =
      preF (stepArena a p s) f' x := by
    rw [List.flatMap_cons]
    simp
  rw [h3, hNx f' (by omega)]
  have hx' : y + 1 + (x - y - 1) = x := by omega
  have h4 := List.range'_append_1 (y + 1) (x - y - 1) (n + 1 - x)
  rw [hx'] at h4
  have h4c : n + 1 - x + (x - y - 1) = n - y := by omega
  rw [h4c] at h4
  rw [h4]
  have : n + 1 - y = (n - y) + 1 := by omega
  rw [this, List.range'_succ]

theorem spine_lift {a : Arena} {p : Nat} {s : FsNode}
    (hs0 : s.children = [])
    (hcb : ∀ i, i < a.length → ∀ j ∈ (getNode a i).children, i < j ∧ j < a.length) :
    ∀ (l : List Nat),
      (∀ x ∈ l, x < a.length ∧ SpineAt a x ∧ x ≤ p) →
      l.Chain' (fun x y =>
        (getNode a x).parent = some y ∧ (getNode a y).children.getLast? = some x) →
      (∀ x, l.head? = some x →
        ∀ f, a.length + 1 - x ≤ f →
          preF (stepArena a p s) f x = List.range' x (a.length + 1 - x)) →
      ∀ x ∈ l, ∀ f, a.length + 1 - x ≤ f →
        preF (stepArena a p s) f x = List.range' x (a.length + 1 - x)
  | [], _, _, _ => by intro x hx; cases hx
  | x :: rest, hmem, hchain, hhead => by
    intro z hz
    have hx : ∀ f, a.length + 1 - x ≤ f →
        preF (stepArena a p s) f x = List.range' x (a.length + 1 - x) :=
      hhead x rfl
    rcases List.mem_cons.mp hz with rfl | hz'
    · exact hx
    · cases rest with
      | nil => cases hz'
      | cons y rest' =>
        have hpair := (List.chain'_cons.mp hchain).1
        have hychain := (List.chain'_cons.mp hchain).2
        have hxm := hmem x (by simp)
        have hym := hmem y (by simp)
        have hyx : y < x := by
          -- the child is created after its parent
          have := hcb y hym.1 x (List.mem_of_getLast?_eq_some hpair.2)
          exact this.1
        have hy' : ∀ f, a.length + 1 - y ≤ f →
            preF (stepArena a p s) f y = List.range' y (a.length + 1 - y) :=
          spine_step_up hs0 hcb hym.1 hyx hxm.2.2 hpair.2 hym.2.1 hxm.2.1 hx
        refine spine_lift hs0 hcb (y :: rest')
          (fun u hu => hmem u (List.mem_cons_of_mem x hu)) hychain
          (fun u hu => ?_) z hz'
        have hu' : u = y := by injection hu with h'; exact h'.symm
        subst hu'
        exact hy'

theorem chain'_mono_tail {α} {R S : α → α → Prop} :
    ∀ {l : List α}, l.Chain' R → (∀ x ∈ l, ∀ y ∈ l.tail, R x y → S x y) → l.Chain' S
  | [], _, _ => List.chain'_nil
  | [_], _, _ => List.chain'_singleton _
  | x :: y :: l, h, hmono => by
    rw [List.chain'_cons] at h ⊢
    refine ⟨hmono x (by simp) y (by simp) h.1, chain'_mono_tail h.2 ?_⟩
    intro u hu v hv
    exact hmono u (by simp [List.mem_cons.mp hu]) v (by simp at hv ⊢; exact Or.inr hv)

theorem parseStep_ok_parseInv {a : Arena} {path : List Nat} {s : FsNode}
    {st' : Arena × List Nat}
    (inv : ParseInv a path) (hs0 : s.children = []) (hs1 : 0 ≤ s.indentCount)
    (h : parseStep (a, path) s = .ok st') : ParseInv st'.1 st'.2 := by
  obtain ⟨-, p, rest2, hdrop, rfl⟩ := parseStep_eq_ok.mp h
  set n := a.length with hn
  have hlen2 : (stepArena a p s).length = n + 1 := stepArena_length a p s
  have hsuffix : (p :: rest2) <:+ path := by
    rw [← hdrop]
    exact List.dropWhile_suffix _
  have hpmem : p ∈ path := hsuffix.subset (by simp)
  have hpn : p < n := inv.pathMem p hpmem
  have hmem2 : ∀ x ∈ p :: rest2, x ∈ path := fun x hx => hsuffix.subset hx
  have hdec2 : (p :: rest2).Chain' (· > ·) := inv.pathDec.suffix hsuffix
  have hpar2 : (p :: rest2).Chain' (fun x y =>
      (getNode a x).parent = some y ∧ (getNode a y).children.getLast? = some x) :=
    inv.pathPar.suffix hsuffix
  have hlast2 : (p :: rest2).getLast? = some 0 := by
    rw [← suffix_getLast? hsuffix (by simp)]
    exact inv.pathLast
  have hrest_lt : ∀ z ∈ rest2, z < p := by
    have hpw : (p :: rest2).Pairwise (· > ·) := List.chain'_iff_pairwise.mp hdec2
    exact fun z hz => (List.pairwise_cons.mp hpw).1 z hz
  have hcb' : ∀ i, i < a.length → ∀ j ∈ (getNode a i).children, i < j ∧ j < a.length :=
    fun i _ j hj => inv.childBounds i j hj
  -- the fresh leaf's subtree is itself
  have hspine_n : ∀ f, 1 ≤ f →
      preF (stepArena a p s) f n = List.range' n 1 := by
    intro f hf
    obtain ⟨f', rfl⟩ : ∃ f', f = f' + 1 := ⟨f - 1, by omega⟩
    unfold preF
    rw [getNode_stepArena_n]
    show n :: (s.children.flatMap _) = _
    rw [hs0]
    rfl
  -- the open spine keeps its interval property in the new arena
  have hspine2 : ∀ x ∈ p :: rest2, ∀ f, n + 1 - x ≤ f →
      preF (stepArena a p s) f x = List.range' x (n + 1 - x) := by
    refine spine_lift hs0 hcb' (p :: rest2) ?_ hpar2 ?_
    · intro x hx
      refine ⟨inv.pathMem x (hmem2 x hx), inv.spine x (hmem2 x hx), ?_⟩
      rcases List.mem_cons.mp hx with rfl | hx'
      · exact Nat.le_refl _
      · exact Nat.le_of_lt (hrest_lt x hx')
    · intro x hx
      have hx' : x = p := by injection hx with h'; exact h'.symm
      subst hx'
      exact spine_step_base hs0 hcb' hpn (inv.spine _ hpmem)
  refine ⟨?_, ?_, ?_, ?_, ?_, ?_, ?_, ?_, ?_, ?_, by simp, ?_, ?_, ?_, ?_, ?_⟩
  · show 1 ≤ (stepArena a p s).length
    omega
  · show (getNode (stepArena a p s) 0).name = "."
    rw [stepArena_name hpn (by omega)]
    exact inv.rootName
  · show (getNode (stepArena a p s) 0).indentCount = -1
    rw [stepArena_indent hpn (by omega)]
    exact inv.rootIndent
  · show (getNode (stepArena a p s) 0).parent = none
    rw [stepArena_parent hpn (by omega)]
    exact inv.rootParent
  · -- nodeParent
    intro j h1 h2
    rw [hlen2] at h2
    rcases Nat.lt_or_ge j n with hj | hj
    · rw [stepArena_parent hpn hj]
      exact inv.nodeParent j h1 hj
    · obtain rfl : j = n := by omega
      rw [getNode_stepArena_n]
      exact ⟨p, rfl, hpn⟩
  · -- nodeIndent
    intro j h1 h2
    rw [hlen2] at h2
    rcases Nat.lt_or_ge j n with hj | hj
    · rw [stepArena_indent hpn hj]
      exact inv.nodeIndent j h1 hj
    · obtain rfl : j = n := by omega
      rw [getNode_stepArena_n]
      exact hs1
  · -- childSorted
    intro i
    by_cases hip : i = p
    · subst hip
      rw [getNode_stepArena_p hpn]
      show ((getNode a i).children ++ [n]).Chain' (· < ·)
      refine List.Chain'.append (inv.childSorted i) (List.chain'_singleton _) ?_
      intro x hx y hy
      have hxm : x ∈ (getNode a i).children := List.mem_of_getLast?_eq_some hx
      have : y = n := by injection hy with h'; exact h'.symm
      subst this
      exact (inv.childBounds i x hxm).2
    · rw [stepArena_children_ne hs0 hip]
      exact inv.childSorted i
  · -- childBounds
    intro i j hj
    rw [hlen2]
    by_cases hip : i = p
    · subst hip
      rw [getNode_stepArena_p hpn] at hj
      rcases List.mem_append.mp hj with hj' | hj'
      · have := inv.childBounds i j hj'
        omega
      · have : j = n := by simpa using hj'
        omega
    · rw [stepArena_children_ne hs0 hip] at hj
      have := inv.childBounds i j hj
      omega
  · -- childParent
    intro i j hj
    by_cases hip : i = p
    · subst hip
      rw [getNode_stepArena_p hpn] at hj
      rcases List.mem_append.mp hj with hj' | hj'
      · have hb := inv.childBounds i j hj'
        rw [stepArena_parent hpn hb.2]
        exact inv.childParent i j hj'
      · have : j = n := by simpa using hj'
        subst this
        rw [getNode_stepArena_n]
    · rw [stepArena_children_ne hs0 hip] at hj
      have hb := inv.childBounds i j hj
      rw [stepArena_parent hpn hb.2]
      exact inv.childParent i j hj
  · -- parentChild
    intro j q hjlen hq
    rw [hlen2] at hjlen
    rcases Nat.lt_or_ge j n with hj | hj
    · rw [stepArena_parent hpn hj] at hq
      have hold := inv.parentChild j q hj hq
      by_cases hqp : q = p
      · subst hqp
        rw [getNode_stepArena_p hpn]
        exact List.mem_append_left _ hold
      · rw [stepArena_children_ne hs0 hqp]
        exact hold
    · obtain rfl : j = n := by omega
      rw [getNode_stepArena_n] at hq
      have : q = p := by injection hq with h'; exact h'.symm
      subst this
      rw [getNode_stepArena_p hpn]
      exact List.mem_append_right _ (by simp)
  · -- pathLast
    show (n :: p :: rest2).getLast? = some 0
    rw [List.getLast?_cons_cons]
    exact hlast2
  · -- pathMem
    intro x hx
    rw [hlen2]
    rcases List.mem_cons.mp hx with rfl | hx'
    · omega
    · have := inv.pathMem x (hmem2 x hx')
      omega
  · -- pathDec
    rw [List.chain'_cons]
    exact ⟨hpn, hdec2⟩
  · -- pathPar
    rw [List.chain'_cons]
    constructor
    · constructor
      · rw [getNode_stepArena_n]
      · rw [getNode_stepArena_p hpn]
        show ((getNode a p).children ++ [n]).getLast? = some n
        exact List.getLast?_concat _
    · refine chain'_mono_tail hpar2 ?_
      intro x hx y hy hr
      have hxn : x < n := inv.pathMem x (hmem2 x hx)
      have hyn : y < n := inv.pathMem y (hmem2 y (List.mem_of_mem_tail hy))
      have hyp : y ≠ p := by
        have : y ∈ rest2 := hy
        have := hrest_lt y this
        omega
      constructor
      · rw [stepArena_parent hpn hxn]
        exact hr.1
      · rw [stepArena_children_ne hs0 hyp]
        exact hr.2
  · -- spine
    intro x hx
    unfold SpineAt
    rw [hlen2]
    rcases List.mem_cons.mp hx with rfl | hx'
    · intro f hf
      have h1 : n + 1 - n = 1 := by omega
      rw [h1] at hf ⊢
      exact hspine_n f hf
    · exact hspine2 x hx'

theorem parseStep_not_underflow {a : Arena} {path : List Nat} {s : FsNode}
    (inv : ParseInv a path) (hs1 : 0 ≤ s.indentCount) :
    ∀ nm, parseStep (a, path) s ≠ .error (.badIndentUnderflow nm) := by
  intro nm h
  unfold parseStep at h
  by_cases hj : jumpCond a path s
  · rw [if_pos hj] at h
    injection h with h'
    cases h'
  · rw [if_neg hj] at h
    have hroot : (fun i => decide ((getNode a i).indentCount ≥ s.indentCount)) 0 = false := by
      simp only [decide_eq_false_iff_not]
      rw [inv.rootIndent]
      omega
    have hne := dropWhile_ne_nil_of_getLast
      (fun i => decide ((getNode a i).indentCount ≥ s.indentCount)) inv.pathLast hroot
    cases hd : path.dropWhile (fun i => decide ((getNode a i).indentCount ≥ s.indentCount)) with
    | nil => exact hne hd
    | cons p rest =>
      rw [hd] at h
      exact Except.noConfusion h

theorem runItems_ok_parseInv :
    ∀ (items : List FsNode) (st st' : Arena × List Nat),
      ParseInv st.1 st.2 →
      (∀ s ∈ items, s.children = [] ∧ 0 ≤ s.indentCount) →
      runItems st items = .ok st' → ParseInv st'.1 st'.2
  | [], st, st', inv, _, h => by
    injection h with h'
    subst h'
    exact inv
  | s :: rest, st, st', inv, hitems, h => by
    unfold runItems at h
    cases hs : parseStep st s with
    | ok st1 =>
      rw [hs] at h
      obtain ⟨st2, st3⟩ := st
      have inv1 := parseStep_ok_parseInv inv (hitems s (by simp)).1 (hitems s (by simp)).2 hs
      exact runItems_ok_parseInv rest st1 st' inv1
        (fun u hu => hitems u (by simp [hu])) h
    | error e =>
      rw [hs] at h
      exact Except.noConfusion h

theorem runItems_not_underflow :
    ∀ (items : List FsNode) (st : Arena × List Nat),
      ParseInv st.1 st.2 →
      (∀ s ∈ items, s.children = [] ∧ 0 ≤ s.indentCount) →
      ∀ nm, runItems st items ≠ .error (.badIndentUnderflow nm)
  | [], st, _, _, nm => by
    intro h
    exact Except.noConfusion h
  | s :: rest, st, inv, hitems, nm => by
    intro h
    unfold runItems at h
    cases hs : parseStep st s with
    | ok st1 =>
      rw [hs] at h
      obtain ⟨a, path⟩ := st
      have inv1 := parseStep_ok_parseInv inv (hitems s (by simp)).1 (hitems s (by simp)).2 hs
      exact runItems_not_underflow rest st1 inv1
        (fun u hu => hitems u (by simp [hu])) nm h
    | error e =>
      rw [hs] at h
      injection h with h'
      subst h'
      obtain ⟨a, path⟩ := st
      exact parseStep_not_underflow inv (hitems s (by simp)).2 nm hs

theorem parseInput_ok_inv {input : String} {a : Arena} (h : parseInput input = .ok a) :
    ∃ path, runItems ([rootNode], [0]) (splitInput input) = .ok (a, path) ∧
      ParseInv a path := by
  unfold parseInput at h
  by_cases he : input = ""
  · rw [if_pos he] at h
    exact Except.noConfusion h
  · rw [if_neg he] at h
    cases hr : runItems ([rootNode], [0]) (splitInput input) with
    | ok st =>
      obtain ⟨a', path⟩ := st
      rw [hr] at h
      injection h with h'
      subst h'
      refine ⟨path, rfl, ?_⟩
      have := runItems_ok_parseInv (splitInput input) ([rootNode], [0]) (a', path)
        parseInv_init
        (fun u hu => ⟨(splitInput_item_facts hu).1, (splitInput_item_facts hu).2.2⟩) hr
      exact this
    | error e =>
      rw [hr] at h
      exact Except.noConfusion h

/-! ## C9 -/

/-- C9: for every input string, the parser's ancestor stack never becomes
empty during the attachment loop — `parseInput` can never return the
error thrown by the empty-stack branch, because every item's indent is at
least 0 while the root sentinel at the bottom of the stack has indent −1
and is therefore never popped. -/
theorem c9_underflow_unreachable (input : String) :
    underflowFree (parseInput input) = true := by
  unfold parseInput
  by_cases he : input = ""
  · rw [if_pos he]
    rfl
  · rw [if_neg he]
    cases hr : runItems ([rootNode], [0]) (splitInput input) with
    | ok st =>
      obtain ⟨a, path⟩ := st
      rfl
    | error e =>
      cases e with
      | emptyInput => rfl
      | badIndentJump nm => rfl
      | badIndentUnderflow nm =>
        exact absurd hr (runItems_not_underflow (splitInput input) ([rootNode], [0])
          parseInv_init
          (fun u hu => ⟨(splitInput_item_facts hu).1, (splitInput_item_facts hu).2.2⟩) nm)

/-! ## Document order: arena index `k + 1` is the `k`-th input item -/

theorem stepArena_name_indent {a : Arena} {p : Nat} {s : FsNode} {j : Nat}
    (hj : j < a.length) :
    (getNode (stepArena a p s) j).name = (getNode a j).name ∧
    (getNode (stepArena a p s) j).indentCount = (getNode a j).indentCount := by
  by_cases hip : j = p
  · subst hip
    rw [getNode_stepArena_p hj]
    exact ⟨rfl, rfl⟩
  · rw [getNode_stepArena_lt hj hip]
    exact ⟨rfl, rfl⟩

theorem runItems_names :
    ∀ (items : List FsNode) (st st' : Arena × List Nat),
      runItems st items = .ok st' →
      st'.1.length = st.1.length + items.length ∧
      (∀ j, j < st.1.length →
        (getNode st'.1 j).name = (getNode st.1 j).name ∧
        (getNode st'.1 j).indentCount = (getNode st.1 j).indentCount) ∧
      (∀ k, k < items.length →
        (getNode st'.1 (st.1.length + k)).name = (items.getD k defaultNode).name ∧
        (getNode st'.1 (st.1.length + k)).indentCount =
          (items.getD k defaultNode).indentCount)
  | [], st, st', h => by
    injection h with h'
    subst h'
    exact ⟨rfl, fun j _ => ⟨rfl, rfl⟩, fun k hk => absurd hk (by simp)⟩
  | s :: rest, st, st', h => by
    obtain ⟨a, path⟩ := st
    unfold runItems at h
    cases hs : parseStep (a, path) s with
    | error e =>
      rw [hs] at h
      exact Except.noConfusion h
    | ok st1 =>
      rw [hs] at h
      obtain ⟨-, p, rest2, -, rfl⟩ := parseStep_eq_ok.mp hs
      have ih := runItems_names rest _ st' h
      have hlen1 : (stepArena a p s).length = a.length + 1 := stepArena_length a p s
      refine ⟨?_, ?_, ?_⟩
      · have i1 : st'.1.length = (stepArena a p s).length + rest.length := ih.1
        show st'.1.length = a.length + (s :: rest).length
        rw [i1, hlen1]
        simp
        omega
      · intro j hj
        have hj2 : j < a.length := hj
        have h1 : (getNode st'.1 j).name = (getNode (stepArena a p s) j).name ∧
            (getNode st'.1 j).indentCount = (getNode (stepArena a p s) j).indentCount :=
          ih.2.1 j (by show j < (stepArena a p s).length; rw [hlen1]; omega)
        have h2 := stepArena_name_indent (p := p) (s := s) hj2
        exact ⟨h1.1.trans h2.1, h1.2.trans h2.2⟩
      · intro k hk
        cases k with
        | zero =>
          have h1 : (getNode st'.1 a.length).name = (getNode (stepArena a p s) a.length).name ∧
              (getNode st'.1 a.length).indentCount =
                (getNode (stepArena a p s) a.length).indentCount :=
            ih.2.1 a.length (by show a.length < (stepArena a p s).length; rw [hlen1]; omega)
          rw [Nat.add_zero]
          refine ⟨h1.1.trans ?_, h1.2.trans ?_⟩ <;>
            rw [getNode_stepArena_n] <;> rfl
        | succ k' =>
          have h1 : (getNode st'.1 ((stepArena a p s).length + k')).name =
              (rest.getD k' defaultNode).name ∧
              (getNode st'.1 ((stepArena a p s).length + k')).indentCount =
                (rest.getD k' defaultNode).indentCount :=
            ih.2.2 k' (by simp at hk; omega)
          rw [hlen1] at h1
          have : a.length + (k' + 1) = a.length + 1 + k' := by omega
          rw [this]
          exact h1

/-! ## C4 -/

/-- C4: every tree returned by a successful `parseInput` has exactly one
root — index 0, with sentinel indent −1, name ".", absent parent — and
every non-root node appears in its parent's children exactly once, with
children listed in increasing arena-index order, where arena index
`k + 1` carries the `k`-th surviving input line, i.e. document order. -/
theorem c4_parse_invariants {input : String} {a : Arena}
    (h : parseInput input = .ok a) :
    ((getNode a 0).name = "." ∧ (getNode a 0).indentCount = -1 ∧
      (getNode a 0).parent = none) ∧
    (∀ j, j < a.length → ((getNode a j).parent = none ↔ j = 0)) ∧
    (∀ j p, j < a.length → (getNode a j).parent = some p →
      (getNode a p).children.count j = 1) ∧
    (∀ i, (getNode a i).children.Chain' (· < ·)) ∧
    (∀ i j, j ∈ (getNode a i).children → (getNode a j).parent = some i) ∧
    (a.length = (splitInput input).length + 1 ∧
      ∀ k, k < (splitInput input).length →
        (getNode a (k + 1)).name = ((splitInput input).getD k defaultNode).name) := by
  obtain ⟨path, hrun, inv⟩ := parseInput_ok_inv h
  have hnames := runItems_names (splitInput input) ([rootNode], [0]) (a, path) hrun
  refine ⟨⟨inv.rootName, inv.rootIndent, inv.rootParent⟩, ?_, ?_, inv.childSorted,
    inv.childParent, ?_, ?_⟩
  · intro j hj
    constructor
    · intro hnone
      by_contra hj0
      obtain ⟨p, hp, -⟩ := inv.nodeParent j (by omega) hj
      rw [hnone] at hp
      exact Option.noConfusion hp
    · intro hj0
      subst hj0
      exact inv.rootParent
  · intro j p hj hp
    have hmem := inv.parentChild j p hj hp
    have hnd : (getNode a p).children.Nodup := by
      have := List.chain'_iff_pairwise.mp (inv.childSorted p)
      exact this.imp Nat.ne_of_lt
    exact List.count_eq_one_of_mem hnd hmem
  · have h1 : a.length = 1 + (splitInput input).length := hnames.1
    omega
  · intro k hk
    have h2 : (getNode a (1 + k)).name = ((splitInput input).getD k defaultNode).name ∧
        (getNode a (1 + k)).indentCount =
          ((splitInput input).getD k defaultNode).indentCount :=
      hnames.2.2 k hk
    have heq : (1 : Nat) + k = k + 1 := by omega
    rw [heq] at h2
    exact h2.1

theorem c4_witness :
    (getNode [⟨".", [1], -1, none⟩, ⟨"a", [], 0, some 0⟩] 0).name = "." ∧
    (getNode [⟨".", [1], -1, none⟩, ⟨"a", [], 0, some 0⟩] 0).indentCount = -1 ∧
    (getNode [⟨".", [1], -1, none⟩, ⟨"a", [], 0, some 0⟩] 0).parent = none :=
  (c4_parse_invariants (by rfl : parseInput "a" =
    .ok [⟨".", [1], -1, none⟩, ⟨"a", [], 0, some 0⟩])).1

/-! ## C3 -/

theorem genLoop_eq_filterMap (a : Arena) (o : MergedOptions) :
    ∀ (f : Nat) (stack : List Nat),
      genLoop a o f stack = (visitLoop a f stack).filterMap (fun i => getAsciiLine a i o)
  | 0, _ => rfl
  | _+1, [] => rfl
  | f+1, i :: rest => by
    unfold genLoop visitLoop
    rw [List.filterMap_cons]
    cases hl : getAsciiLine a i o with
    | none => exact genLoop_eq_filterMap a o f ((getNode a i).children ++ rest)
    | some l =>
      rw [genLoop_eq_filterMap a o f ((getNode a i).children ++ rest)]

theorem visitLoop_flatMap {a : Arena}
    (hcb : ∀ i, i < a.length → ∀ j ∈ (getNode a i).children, i < j ∧ j < a.length) :
    ∀ (f : Nat) (stack : List Nat), (∀ i ∈ stack, i ≤ a.length) →
      (stack.map (fun i => (preF a (a.length + 5) i).length)).sum ≤ f →
      visitLoop a f stack = stack.flatMap (preF a (a.length + 5)) := by
  intro f
  induction f with
  | zero =>
    intro stack hmem hsum
    cases stack with
    | nil => rfl
    | cons i rest =>
      exfalso
      rw [List.map_cons, List.sum_cons] at hsum
      have : 1 ≤ (preF a (a.length + 5) i).length := by
        unfold preF
        simp
      omega
  | succ f ih =>
    intro stack hmem hsum
    cases stack with
    | nil => rfl
    | cons i rest =>
      have hchild : ∀ c ∈ (getNode a i).children,
          preF a (a.length + 4) c = preF a (a.length + 5) c := by
        intro c hc
        rcases Nat.lt_or_ge i a.length with hi | hi
        · obtain ⟨-, hcn⟩ := hcb i hi c hc
          exact preF_stable hcb (a.length + 4) (a.length + 5) c (by omega) (by omega) (by omega)
        · rw [getNode_out hi] at hc
          cases hc
      have hunfold : preF a (a.length + 5) i =
          i :: (getNode a i).children.flatMap (preF a (a.length + 4)) := rfl
      show i :: visitLoop a f ((getNode a i).children ++ rest) = _
      rw [List.flatMap_cons, hunfold, flatMap_congr_mem hchild]
      have hstack2 : ∀ x ∈ (getNode a i).children ++ rest, x ≤ a.length := by
        intro x hx
        rcases List.mem_append.mp hx with hx' | hx'
        · rcases Nat.lt_or_ge i a.length with hi | hi
          · exact Nat.le_of_lt (hcb i hi x hx').2
          · rw [getNode_out hi] at hx'
            cases hx'
        · exact hmem x (by simp [hx'])
      have hsum2 : (((getNode a i).children ++ rest).map
          (fun i => (preF a (a.length + 5) i).length)).sum ≤ f := by
        have hlen_i : (preF a (a.length + 5) i).length =
            1 + ((getNode a i).children.map
              (fun c => (preF a (a.length + 5) c).length)).sum := by
          rw [hunfold, List.length_cons, List.length_flatMap]
          have hmc : List.map (List.length ∘ preF a (a.length + 4)) (getNode a i).children =
              (getNode a i).children.map (fun c => (preF a (a.length + 5) c).length) := by
            apply List.map_congr_left
            intro c hc
            show (preF a (a.length + 4) c).length = _
            rw [hchild c hc]
          rw [hmc]
          omega
        rw [List.map_cons, List.sum_cons, hlen_i] at hsum
        rw [List.map_append, List.sum_append]
        omega
      rw [ih ((getNode a i).children ++ rest) hstack2 hsum2, List.flatMap_append]
      rfl

theorem parseInv_visit {a : Arena} {path : List Nat} (inv : ParseInv a path) :
    visitLoop a a.length [0] = List.range' 0 a.length := by
  have h0 : (0 : Nat) ∈ path := List.mem_of_getLast?_eq_some inv.pathLast
  have hpre : preF a (a.length + 5) 0 = List.range' 0 a.length := by
    have := inv.spine 0 h0 (a.length + 5) (by omega)
    simpa using this
  have hcb' : ∀ i, i < a.length → ∀ j ∈ (getNode a i).children, i < j ∧ j < a.length :=
    fun i _ j hj => inv.childBounds i j hj
  have hsum : (([0] : List Nat).map (fun i => (preF a (a.length + 5) i).length)).sum ≤
      a.length := by
    simp [hpre]
  rw [visitLoop_flatMap hcb' a.length [0] (by simp) hsum]
  rw [List.flatMap_cons]
  simp [hpre]

theorem getAsciiLine_root {a : Arena} {i : Nat} {o : MergedOptions}
    (hp : (getNode a i).parent = none) :
    getAsciiLine a i o = if o.rootDot then some (getNode a i).name else none := by
  simp only [getAsciiLine, hp]

theorem getAsciiLine_nonroot {a : Arena} {i : Nat} {o : MergedOptions} {p : Nat}
    (hp : (getNode a i).parent = some p) :
    (getAsciiLine a i o).isSome = true := by
  simp only [getAsciiLine, hp, Option.isSome_some]

theorem filterMap_all_some_length {α β} (f : α → Option β) :
    ∀ l : List α, (∀ x ∈ l, (f x).isSome) → (l.filterMap f).length = l.length
  | [], _ => rfl
  | x :: l, h => by
    cases hf : f x with
    | none =>
      have := h x (by simp)
      rw [hf] at this
      cases this
    | some y =>
      rw [List.filterMap_cons_some hf, List.length_cons, List.length_cons,
        filterMap_all_some_length f l (fun z hz => h z (by simp [hz]))]

/-- C3: for a tree produced by `parseInput`, `generateTree` emits exactly
one line per node: with merged `rootDot = true` the number of emitted
lines equals the total node count (root included); with
`rootDot = false` it equals the node count minus one, the root yielding
no line. -/
theorem c3_line_count {input : String} {a : Arena} (h : parseInput input = .ok a)
    (o : GenerateTreeOptions) :
    (generateTreeLines a o).length =
      (if (mergeOptions o).rootDot then a.length else a.length - 1) := by
  obtain ⟨path, -, inv⟩ := parseInput_ok_inv h
  unfold generateTreeLines
  rw [genLoop_eq_filterMap, parseInv_visit inv]
  have hsplit : List.range' 0 a.length = 0 :: List.range' 1 (a.length - 1) := by
    have h1 : a.length = (a.length - 1) + 1 := by
      have := inv.nlen
      omega
    rw [h1, List.range'_succ]
    simp
  rw [hsplit, List.filterMap_cons]
  have hroot : getAsciiLine a 0 (mergeOptions o) =
      (if (mergeOptions o).rootDot then some (getNode a 0).name else none) :=
    getAsciiLine_root inv.rootParent
  have hrest : (((List.range' 1 (a.length - 1))).filterMap
      (fun i => getAsciiLine a i (mergeOptions o))).length = a.length - 1 := by
    rw [filterMap_all_some_length]
    · exact List.length_range' ..
    · intro j hj
      have hjb := List.mem_range'_1.mp hj
      obtain ⟨p, hp, -⟩ := inv.nodeParent j (by omega) (by omega)
      exact getAsciiLine_nonroot hp
  rw [hroot]
  cases hrd : (mergeOptions o).rootDot with
  | true =>
    rw [if_pos rfl, if_pos rfl]
    show ((getNode a 0).name :: (List.range' 1 (a.length - 1)).filterMap
      (fun i => getAsciiLine a i (mergeOptions o))).length = a.length
    rw [List.length_cons, hrest]
    have := inv.nlen
    omega
  | false =>
    rw [if_neg (by simp), if_neg (by simp)]
    show ((List.range' 1 (a.length - 1)).filterMap
      (fun i => getAsciiLine a i (mergeOptions o))).length = a.length - 1
    exact hrest

theorem c3_witness :
    (generateTreeLines [⟨".", [1], -1, none⟩, ⟨"a", [], 0, some 0⟩] {}).length = 2 := by
  have := c3_line_count (show parseInput "a" =
    .ok [⟨".", [1], -1, none⟩, ⟨"a", [], 0, some 0⟩] from rfl) {}
  simpa using this

/-! ## C7 and C10: the structured serializers -/

theorem dotCollect_eq (a : Arena) :
    ∀ (f i : Nat), dotCollect a f i =
      ((preF a f i).filter (fun j => (getNode a j).name != ".")).map (getFullPath a)
  | 0, _ => rfl
  | f+1, i => by
    have hrec : (getNode a i).children.flatMap (dotCollect a f) =
        (((getNode a i).children.flatMap (preF a f)).filter
          (fun j => (getNode a j).name != ".")).map (getFullPath a) := by
      rw [List.filter_flatMap, List.map_flatMap]
      exact flatMap_congr_mem (fun c _ => dotCollect_eq a f c)
    show (if (getNode a i).name != "." then [getFullPath a i] else []) ++
        (getNode a i).children.flatMap (dotCollect a f) = _
    rw [show preF a (f+1) i = i :: (getNode a i).children.flatMap (preF a f) from rfl,
      List.filter_cons]
    by_cases hn : (getNode a i).name != "."
    · rw [if_pos hn, if_pos hn, List.map_cons, hrec]
      rfl
    · rw [if_neg hn, if_neg hn, hrec]
      rfl

theorem flatFiles_eq (a : Arena) :
    ∀ (f i : Nat), flatFiles a f i =
      ((preF a f i).filter (fun j =>
        (getNode a j).name != "." && (getNode a j).children.isEmpty)).map (getFullPath a)
  | 0, _ => rfl
  | f+1, i => by
    have hrec : (getNode a i).children.flatMap (flatFiles a f) =
        (((getNode a i).children.flatMap (preF a f)).filter
          (fun j => (getNode a j).name != "." && (getNode a j).children.isEmpty)).map
          (getFullPath a) := by
      rw [List.filter_flatMap, List.map_flatMap]
      exact flatMap_congr_mem (fun c _ => flatFiles_eq a f c)
    show (if (getNode a i).name != "." && (getNode a i).children.isEmpty
        then [getFullPath a i] else []) ++ (getNode a i).children.flatMap (flatFiles a f) = _
    rw [show preF a (f+1) i = i :: (getNode a i).children.flatMap (preF a f) from rfl,
      List.filter_cons]
    by_cases hn : ((getNode a i).name != "." && (getNode a i).children.isEmpty) = true
    · rw [if_pos hn, if_pos hn, List.map_cons, hrec]
      rfl
    · rw [if_neg hn, if_neg hn, hrec]
      rfl

theorem flatDirs_eq (a : Arena) :
    ∀ (f i : Nat), flatDirs a f i =
      ((preF a f i).filter (fun j =>
        (getNode a j).name != "." && !(getNode a j).children.isEmpty)).map (getFullPath a)
  | 0, _ => rfl
  | f+1, i => by
    have hrec : (getNode a i).children.flatMap (flatDirs a f) =
        (((getNode a i).children.flatMap (preF a f)).filter
          (fun j => (getNode a j).name != "." && !(getNode a j).children.isEmpty)).map
          (getFullPath a) := by
      rw [List.filter_flatMap, List.map_flatMap]
      exact flatMap_congr_mem (fun c _ => flatDirs_eq a f c)
    show (if (getNode a i).name != "." && !(getNode a i).children.isEmpty
        then [getFullPath a i] else []) ++ (getNode a i).children.flatMap (flatDirs a f) = _
    rw [show preF a (f+1) i = i :: (getNode a i).children.flatMap (preF a f) from rfl,
      List.filter_cons]
    by_cases hn : ((getNode a i).name != "." && !(getNode a i).children.isEmpty) = true
    · rw [if_pos hn, if_pos hn, List.map_cons, hrec]
      rfl
    · rw [if_neg hn, if_neg hn, hrec]
      rfl

theorem upChain_truncate (a : Arena) :
    ∀ (k d j : Nat), 1 ≤ k → ancestorAt a k d = some j →
      (getNode a j).name = "." →
      (∀ m i', m < k → ancestorAt a m d = some i' → (getNode a i').name ≠ ".") →
      ∀ f, k + 1 ≤ f → upChain a f (some d) = belowNames a k d := by
  intro k
  induction k with
  | zero => intro d j h1; omega
  | succ k' ih =>
    intro d j h1 hanc hj hnames f hf
    have hd : (getNode a d).name ≠ "." := hnames 0 d (by omega) rfl
    obtain ⟨f', rfl⟩ : ∃ f', f = f' + 1 := ⟨f - 1, by omega⟩
    unfold upChain
    rw [if_neg hd]
    unfold ancestorAt at hanc
    cases hp : (getNode a d).parent with
    | none =>
      rw [hp] at hanc
      exact Option.noConfusion hanc
    | some p =>
      rw [hp] at hanc
      have hmain : upChain a f' (some p) = belowNames a k' p := by
        cases k' with
        | zero =>
          -- the parent itself is the dot-named ancestor
          have hpj : p = j := by
            unfold ancestorAt at hanc
            injection hanc
          subst hpj
          obtain ⟨f'', rfl⟩ : ∃ f'', f' = f'' + 1 := ⟨f' - 1, by omega⟩
          unfold upChain
          rw [if_pos hj]
          rfl
        | succ k'' =>
          refine ih p j (by omega) hanc hj ?_ f' (by omega)
          intro m i' hm hi
          refine hnames (m + 1) i' (by omega) ?_
          unfold ancestorAt
          rw [hp]
          exact hi
      unfold belowNames
      rw [hp, hmain]

/-- C10: the structured serializers identify the root by name: the dot
and flat-JSON collectors emit entries exactly for pre-order-visited nodes
whose name is not ".", so any node named "." is omitted; and the upward
path walk stops at the first "."-named ancestor, so a descendant's
slash-joined path contains exactly the names strictly below that
ancestor — the "."-named node and all of its own ancestors are excluded. -/
theorem c10_root_identified_by_name :
    (∀ (a : Arena) (f i : Nat), dotCollect a f i =
        ((preF a f i).filter (fun j => (getNode a j).name != ".")).map (getFullPath a)) ∧
    (∀ (a : Arena) (f i : Nat), flatFiles a f i =
        ((preF a f i).filter (fun j =>
          (getNode a j).name != "." && (getNode a j).children.isEmpty)).map
          (getFullPath a)) ∧
    (∀ (a : Arena) (f i : Nat), flatDirs a f i =
        ((preF a f i).filter (fun j =>
          (getNode a j).name != "." && !(getNode a j).children.isEmpty)).map
          (getFullPath a)) ∧
    (∀ (a : Arena) (k d j : Nat), 1 ≤ k → ancestorAt a k d = some j →
      (getNode a j).name = "." →
      (∀ m i', m < k → ancestorAt a m d = some i' → (getNode a i').name ≠ ".") →
      ∀ f, k + 1 ≤ f → upChain a f (some d) = belowNames a k d) ∧
    (∀ (a : Arena) (d : Nat), getFullPath a d =
      String.intercalate "/" (upChain a a.length (some d))) :=
  ⟨dotCollect_eq, flatFiles_eq, flatDirs_eq, upChain_truncate, fun _ _ => rfl⟩

theorem c10_witness :
    upChain [⟨".", [1], -1, none⟩, ⟨"a", [2], 0, some 0⟩, ⟨".", [3], 2, some 1⟩,
      ⟨"b", [], 4, some 2⟩] 4 (some 3) =
    belowNames [⟨".", [1], -1, none⟩, ⟨"a", [2], 0, some 0⟩, ⟨".", [3], 2, some 1⟩,
      ⟨"b", [], 4, some 2⟩] 1 3 := by
  refine c10_root_identified_by_name.2.2.2.1 _ 1 3 2 (by omega) (by rfl) (by rfl) ?_ 4
    (by omega)
  intro m i' hm hi
  obtain rfl : m = 0 := by omega
  have hi' : i' = 3 := by
    unfold ancestorAt at hi
    injection hi with h'
    exact h'.symm
  subst hi'
  decide

theorem natListLe_trans : ∀ (x y z : List Nat),
    natListLe x y = true → natListLe y z = true → natListLe x z = true
  | [], _, _, _, _ => rfl
  | _ :: _, [], _, h1, _ => by cases h1
  | _ :: _, _ :: _, [], _, h2 => by cases h2
  | a :: x, b :: y, c :: z, h1, h2 => by
    unfold natListLe at h1 h2 ⊢
    by_cases hab : a < b
    · by_cases hbc : b < c
      · rw [if_pos (by omega)]
      · rw [if_neg hbc] at h2
        by_cases hcb : c < b
        · rw [if_pos hcb] at h2
          cases h2
        · rw [if_pos (by omega)]
    · rw [if_neg hab] at h1
      by_cases hba : b < a
      · rw [if_pos hba] at h1
        cases h1
      · rw [if_neg hba] at h1
        by_cases hbc : b < c
        · rw [if_pos (by omega)]
        · rw [if_neg hbc] at h2
          by_cases hcb : c < b
          · rw [if_pos hcb] at h2
            cases h2
          · rw [if_neg hcb] at h2
            rw [if_neg (by omega), if_neg (by omega)]
            exact natListLe_trans x y z h1 h2

theorem natListLe_total : ∀ (x y : List Nat), (natListLe x y || natListLe y x) = true
  | [], _ => rfl
  | _ :: _, [] => rfl
  | a :: x, b :: y => by
    unfold natListLe
    by_cases hab : a < b
    · rw [if_pos hab]
      rfl
    · by_cases hba : b < a
      · rw [if_neg hab, if_pos hba, if_pos hba]
        rfl
      · rw [if_neg hab, if_neg hba, if_neg hba, if_neg hab]
        exact natListLe_total x y

theorem jsLeb_trans (x y z : String) (h1 : jsLeb x y = true) (h2 : jsLeb y z = true) :
    jsLeb x z = true :=
  natListLe_trans _ _ _ h1 h2

theorem jsLeb_total (x y : String) : (jsLeb x y || jsLeb y x) = true :=
  natListLe_total _ _

/-- C7 counterexample: for the parsed tree of input ".", whose single
non-root node is named ".", the dot serializer skips that node (it tests
the root by name, not by parentage), so the number of emitted paths is 0,
not node count − 1 = 1. -/
theorem c7_counterexample :
    parseInput "." = .ok [⟨".", [1], -1, none⟩, ⟨".", [], 0, some 0⟩] ∧
    ((dotCollect [⟨".", [1], -1, none⟩, ⟨".", [], 0, some 0⟩] 2 0).mergeSort jsLeb).length ≠
      ([⟨".", [1], -1, none⟩, ⟨".", [], 0, some 0⟩] : Arena).length - 1 := by
  refine ⟨by rfl, ?_⟩
  rw [(List.mergeSort_perm _ _).length_eq]
  decide

/-- C7 (amended): for every parsed tree in which no *non-root* node is
named ".", `formatDot` joins the sorted path list, which contains exactly
one slash-joined full path per node excluding the root — a permutation of
the full paths of nodes 1..n−1 — is sorted ascending in the UTF-16
code-unit order of JavaScript's default sort, and has length equal to the
total node count minus one. -/
theorem c7_dot_list {input : String} {a : Arena} (h : parseInput input = .ok a)
    (hnames : ∀ j, 1 ≤ j → j < a.length → (getNode a j).name ≠ ".") :
    formatDot a = String.intercalate "\n" ((dotCollect a a.length 0).mergeSort jsLeb) ∧
    ((dotCollect a a.length 0).mergeSort jsLeb).length = a.length - 1 ∧
    ((dotCollect a a.length 0).mergeSort jsLeb).Pairwise (fun x y => jsLeb x y = true) ∧
    ((dotCollect a a.length 0).mergeSort jsLeb).Perm
      ((List.range' 1 (a.length - 1)).map (getFullPath a)) := by
  obtain ⟨path, -, inv⟩ := parseInput_ok_inv h
  have h0 : (0 : Nat) ∈ path := List.mem_of_getLast?_eq_some inv.pathLast
  have hpre : preF a a.length 0 = List.range' 0 a.length := by
    have := inv.spine 0 h0 a.length (by omega)
    simpa using this
  have hcollect : dotCollect a a.length 0 =
      (List.range' 1 (a.length - 1)).map (getFullPath a) := by
    rw [dotCollect_eq, hpre]
    have hsplit : List.range' 0 a.length = 0 :: List.range' 1 (a.length - 1) := by
      have h1 : a.length = (a.length - 1) + 1 := by
        have := inv.nlen
        omega
      rw [h1, List.range'_succ]
      simp
    rw [hsplit, List.filter_cons]
    have hroot0 : ((getNode a 0).name != ".") = false := by
      rw [inv.rootName]
      rfl
    rw [if_neg (by rw [hroot0]; exact Bool.false_ne_true)]
    have hkeep : (List.range' 1 (a.length - 1)).filter
        (fun j => (getNode a j).name != ".") = List.range' 1 (a.length - 1) := by
      rw [List.filter_eq_self]
      intro j hj
      have hjb := List.mem_range'_1.mp hj
      simp only [bne_iff_ne, ne_eq]
      exact hnames j (by omega) (by omega)
    rw [hkeep]
  refine ⟨rfl, ?_, ?_, ?_⟩
  · rw [(List.mergeSort_perm _ _).length_eq, hcollect, List.length_map, List.length_range']
  · exact List.sorted_mergeSort jsLeb_trans jsLeb_total _
  · rw [hcollect] at *
    exact List.mergeSort_perm _ _

theorem c7_witness :
    ((dotCollect [⟨".", [1, 2], -1, none⟩, ⟨"b", [], 0, some 0⟩, ⟨"a", [], 0, some 0⟩]
      3 0).mergeSort jsLeb).length = 2 := by
  have h := c7_dot_list (show parseInput "b\na" =
      .ok [⟨".", [1, 2], -1, none⟩, ⟨"b", [], 0, some 0⟩, ⟨"a", [], 0, some 0⟩] from rfl)
    (by decide)
  simpa using h.2.1

/-! ## C5: the nested-JSON serializer -/

theorem jsSet_update_keys (m : List (String × Js)) (k : String) (v : Js) :
    List.map Prod.fst (m.map (fun p => if p.1 == k then (k, v) else p)) =
      m.map Prod.fst := by
  rw [List.map_map]
  apply List.map_congr_left
  intro p hp
  show (if p.1 == k then (k, v) else p).1 = p.1
  by_cases hpk : p.1 == k
  · rw [if_pos hpk]
    rw [beq_iff_eq] at hpk
    exact hpk.symm
  · rw [if_neg hpk]

theorem jsSet_keys_mem {m : List (String × Js)} {k : String} {v : Js} {x : String} :
    x ∈ (jsSet m k v).map Prod.fst ↔ x ∈ m.map Prod.fst ∨ x = k := by
  unfold jsSet
  by_cases h : m.any (fun p => p.1 == k)
  · rw [if_pos h, jsSet_update_keys]
    have hk : k ∈ m.map Prod.fst := by
      obtain ⟨p, hp, hpk⟩ := List.any_eq_true.mp h
      rw [beq_iff_eq] at hpk
      exact List.mem_map.mpr ⟨p, hp, hpk⟩
    constructor
    · exact Or.inl
    · intro hx
      rcases hx with hx | rfl
      · exact hx
      · exact hk
  · rw [if_neg h, List.map_append]
    simp

theorem jsSet_keys_nodup {m : List (String × Js)} {k : String} {v : Js}
    (h : (m.map Prod.fst).Nodup) : ((jsSet m k v).map Prod.fst).Nodup := by
  unfold jsSet
  by_cases hany : m.any (fun p => p.1 == k)
  · rw [if_pos hany, jsSet_update_keys]
    exact h
  · rw [if_neg hany, List.map_append]
    have hk : k ∉ m.map Prod.fst := by
      intro hkmem
      obtain ⟨p, hp, hpk⟩ := List.mem_map.mp hkmem
      rw [List.any_eq_true] at hany
      exact hany ⟨p, hp, beq_iff_eq.mpr hpk⟩
    rw [List.nodup_append]
    refine ⟨h, List.nodup_singleton _, ?_⟩
    intro x hx1 hx2
    simp at hx2
    subst hx2
    exact hk hx1

theorem jsSet_mem {m : List (String × Js)} {k : String} {v : Js} {kv : String × Js}
    (h : kv ∈ jsSet m k v) : kv ∈ m ∨ kv = (k, v) := by
  unfold jsSet at h
  by_cases hany : m.any (fun p => p.1 == k)
  · rw [if_pos hany] at h
    obtain ⟨p, hp, hpk⟩ := List.mem_map.mp h
    by_cases hpe : p.1 == k
    · rw [if_pos hpe] at hpk
      exact Or.inr hpk.symm
    · rw [if_neg hpe] at hpk
      rw [← hpk]
      exact Or.inl hp
  · rw [if_neg hany] at h
    rcases List.mem_append.mp h with h' | h'
    · exact Or.inl h'
    · simp at h'
      exact Or.inr h'

theorem foldl_jsSet_keys_mem (nm : Nat → String) (g : Nat → Js) :
    ∀ (cs : List Nat) (acc : List (String × Js)) (x : String),
      x ∈ (cs.foldl (fun m c => jsSet m (nm c) (g c)) acc).map Prod.fst ↔
        x ∈ acc.map Prod.fst ∨ x ∈ cs.map nm
  | [], acc, x => by simp
  | c :: cs, acc, x => by
    rw [List.foldl_cons, foldl_jsSet_keys_mem nm g cs (jsSet acc (nm c) (g c)) x]
    rw [List.map_cons, List.mem_cons]
    constructor
    · intro h
      rcases h with h | h
      · rcases jsSet_keys_mem.mp h with h' | h'
        · exact Or.inl h'
        · exact Or.inr (Or.inl h')
      · exact Or.inr (Or.inr h)
    · intro h
      rcases h with h | h | h
      · exact Or.inl (jsSet_keys_mem.mpr (Or.inl h))
      · exact Or.inl (jsSet_keys_mem.mpr (Or.inr h))
      · exact Or.inr h

theorem foldl_jsSet_nodup (nm : Nat → String) (g : Nat → Js) :
    ∀ (cs : List Nat) (acc : List (String × Js)),
      (acc.map Prod.fst).Nodup →
      ((cs.foldl (fun m c => jsSet m (nm c) (g c)) acc).map Prod.fst).Nodup
  | [], _, h => h
  | c :: cs, acc, h => by
    rw [List.foldl_cons]
    exact foldl_jsSet_nodup nm g cs _ (jsSet_keys_nodup h)

theorem foldl_jsSet_values (nm : Nat → String) (g : Nat → Js)
    (P : String × Js → Prop) :
    ∀ (cs : List Nat) (acc : List (String × Js)),
      (∀ kv ∈ acc, P kv) → (∀ c ∈ cs, P (nm c, g c)) →
      ∀ kv ∈ cs.foldl (fun m c => jsSet m (nm c) (g c)) acc, P kv
  | [], _, hacc, _ => hacc
  | c :: cs, acc, hacc, hcs => by
    rw [List.foldl_cons]
    refine foldl_jsSet_values nm g P cs _ ?_ (fun u hu => hcs u (by simp [hu]))
    intro kv hkv
    rcases jsSet_mem hkv with h' | h'
    · exact hacc kv h'
    · rw [h']
      exact hcs c (by simp)

/-- C5: for every tree, the nested-JSON serializer maps a childless node
to `null` unless its name contains the substring "dir", in which case it
becomes the empty object; a node with children becomes an object whose
keys are exactly its children's names (without duplicates), each value
produced from a child of that name; and the overall value is a
single-key object keyed by the root's actual name. -/
theorem c5_nested_json (a : Arena) (i : Nat) (f : Nat) (hf : 1 ≤ f) :
    ((getNode a i).children = [] →
      createNestedObject a f i =
        (if strContains (getNode a i).name "dir" then Js.obj [] else Js.null)) ∧
    ((getNode a i).children ≠ [] →
      ∃ kvs, createNestedObject a f i = .obj kvs ∧
        (kvs.map Prod.fst).Nodup ∧
        (∀ k, k ∈ kvs.map Prod.fst ↔
          k ∈ (getNode a i).children.map (fun c => (getNode a c).name)) ∧
        (∀ kv ∈ kvs, ∃ c ∈ (getNode a i).children,
          (getNode a c).name = kv.1 ∧ kv.2 = createNestedObject a (f - 1) c)) ∧
    formatNestedJsonValue a = .obj [((getNode a 0).name, createNestedObject a a.length 0)] := by
  obtain ⟨f', rfl⟩ : ∃ f', f = f' + 1 := ⟨f - 1, by omega⟩
  refine ⟨?_, ?_, rfl⟩
  · intro hc
    simp only [createNestedObject, hc, List.isEmpty_nil, if_true]
  · intro hc
    have hne : (getNode a i).children.isEmpty = false := by
      cases hse : (getNode a i).children.isEmpty with
      | false => rfl
      | true => exact absurd (List.isEmpty_iff.mp hse) hc
    simp only [createNestedObject, hne, Bool.false_eq_true, if_false]
    refine ⟨_, rfl, ?_, ?_, ?_⟩
    · exact foldl_jsSet_nodup _ _ _ [] (by simp)
    · intro k
      rw [foldl_jsSet_keys_mem]
      simp
    · show ∀ kv ∈ (getNode a i).children.foldl
        (fun m c => jsSet m (getNode a c).name (createNestedObject a f' c)) [], _
      refine foldl_jsSet_values _ _ _ _ [] (by simp) ?_
      intro c hcmem
      exact ⟨c, hcmem, rfl, rfl⟩

theorem c5_witness :
    createNestedObject [⟨".", [1], -1, none⟩, ⟨"somedir", [], 0, some 0⟩] 1 1 = Js.obj [] := by
  have h := (c5_nested_json [⟨".", [1], -1, none⟩, ⟨"somedir", [], 0, some 0⟩] 1 1
    (by omega)).1 (by rfl)
  rw [h]
  rw [if_pos (by decide)]
